import Mathlib

/-!
# Verification of the coreos-diskimage-rehydrator delta engine

Shallow embedding of `src/bupsplit.rs` and `src/rsync.rs`: the rolling
checksum, the content-defined chunker, the CRC32 chunk index, the delta
matcher, the literal deduplicator and the patch encoder.  Byte buffers are
`List Nat` (each element a byte value); 32-bit wrapping arithmetic is
explicit `% 2^32`.  Rust's `HashMap` is modelled as an association list in
insertion order; where its (unspecified, randomized) iteration order is
observable, definitions take the order as an explicit parameter.
-/

set_option maxRecDepth 10000

/-- 2^32, the modulus of Rust `u32` wrapping arithmetic. -/
def U32MOD : Nat := 2 ^ 32

/-- `u32::wrapping_add`. -/
def wadd (a b : Nat) : Nat := (a + b) % U32MOD

/-- `u32::wrapping_sub`. -/
def wsub (a b : Nat) : Nat := (a % U32MOD + (U32MOD - b % U32MOD)) % U32MOD

/-! ## bupsplit.rs -/

/-- `ROLLSUM_CHAR_OFFSET` in bupsplit.rs. -/
def ROLLSUM_CHAR_OFFSET : Nat := 31

/-- `BUP_BLOBBITS` in bupsplit.rs. -/
def BUP_BLOBBITS : Nat := 13

/-- `BUP_BLOBSIZE = 1 << BUP_BLOBBITS`. -/
def BUP_BLOBSIZE : Nat := 1 <<< BUP_BLOBBITS

/-- `BUP_WINDOWBITS` in bupsplit.rs. -/
def BUP_WINDOWBITS : Nat := 7

/-- `BUP_WINDOWSIZE = 1 << BUP_WINDOWBITS - 1`; by Rust operator precedence
this is `1 << (BUP_WINDOWBITS - 1) = 64`, matching the `[0; 64]` window. -/
def BUP_WINDOWSIZE : Nat := 1 <<< (BUP_WINDOWBITS - 1)

/-- The `Rollsum` struct of bupsplit.rs.  `window` always has length 64. -/
structure Rollsum where
  s1 : Nat
  s2 : Nat
  window : List Nat
  wofs : Nat
deriving DecidableEq

/-- `Rollsum::new()`. -/
def Rollsum.new : Rollsum :=
  { s1 := BUP_WINDOWSIZE * ROLLSUM_CHAR_OFFSET
    s2 := BUP_WINDOWSIZE * (BUP_WINDOWSIZE - 1) * ROLLSUM_CHAR_OFFSET
    window := List.replicate 64 0
    wofs := 0 }

/-- `Rollsum::add(drop, add)`: the librsync update formulas in wrapping
32-bit arithmetic. -/
def Rollsum.add (r : Rollsum) (drop add : Nat) : Rollsum :=
  let s1 := wadd r.s1 (wsub add drop)
  let s2 := wadd r.s2 (wsub s1 (BUP_WINDOWSIZE * (drop + ROLLSUM_CHAR_OFFSET)))
  { r with s1 := s1, s2 := s2 }

/-- `Rollsum::roll(ch)`: drop the byte under the cursor, add `ch`,
store `ch` in the window and advance the cursor mod 64. -/
def Rollsum.roll (r : Rollsum) (ch : Nat) : Rollsum :=
  let dval := r.window.getD r.wofs 0
  let r1 := r.add dval ch
  { r1 with window := r1.window.set r.wofs ch, wofs := (r.wofs + 1) % BUP_WINDOWSIZE }

/-- `Rollsum::digest()`. -/
def Rollsum.digest (r : Rollsum) : Nat :=
  Nat.lor ((r.s1 <<< 16) % U32MOD) (Nat.land r.s2 0xFFFF)

/-- The rollsum state after rolling a whole buffer from the initial state. -/
def rollsumRun (buf : List Nat) : Rollsum := buf.foldl Rollsum.roll Rollsum.new

/-- `bupsplit_sum`. -/
def bupsplit_sum (buf : List Nat) : Nat := (rollsumRun buf).digest

/-- The boundary test of `bupsplit_find_ofs`:
`r.s2 & (BUP_BLOBSIZE-1) == u32::MAX & (BUP_BLOBSIZE-1)`. -/
def boundaryHit (r : Rollsum) : Bool :=
  Nat.land r.s2 (BUP_BLOBSIZE - 1) == Nat.land (U32MOD - 1) (BUP_BLOBSIZE - 1)

/-- Loop body of `bupsplit_find_ofs`: scan `l` starting from state `r`,
`ofs` bytes already consumed. -/
def findOfsAux (r : Rollsum) (l : List Nat) (ofs : Nat) : Option Nat :=
  match l with
  | [] => none
  | x :: xs =>
    let r1 := r.roll x
    if boundaryHit r1 then some (ofs + 1) else findOfsAux r1 xs (ofs + 1)

/-- `bupsplit_find_ofs(sbuf)`: offset one past the first chunk boundary,
if any. -/
def bupsplit_find_ofs (sbuf : List Nat) : Option Nat :=
  findOfsAux Rollsum.new sbuf 0

/-! ## CRC32 (the `crc32fast` dependency: standard IEEE reflected CRC-32,
polynomial 0xEDB88320, initial value and final xor 0xFFFFFFFF). -/

/-- One bit-step of the reflected CRC-32. -/
def crc32Round (crc : Nat) : Nat :=
  if crc % 2 = 1 then Nat.xor (crc / 2) 0xEDB88320 else crc / 2

/-- Absorb one byte into the CRC-32 state. -/
def crc32Update (crc b : Nat) : Nat := crc32Round^[8] (Nat.xor crc b)

/-- `crc32fast::Hasher::new(); update(buf); finalize()`. -/
def crc32 (buf : List Nat) : Nat :=
  Nat.xor (buf.foldl crc32Update 0xFFFFFFFF) 0xFFFFFFFF

/-! ## rsync.rs: chunking -/

/-- `ROLLSUM_BLOB_MAX = 8192 * 4`. -/
def ROLLSUM_BLOB_MAX : Nat := 8192 * 4

/-- The `ChunkId` struct: CRC32 plus length. -/
structure ChunkId where
  crc32 : Nat
  len : Nat
deriving DecidableEq

/-- The `Chunk` struct: start offset into its buffer plus the bytes. -/
structure Chunk where
  start : Nat
  buf : List Nat
deriving DecidableEq

/-- `ChunkId` of a byte buffer, as computed in `rollsum_chunks_crc32`. -/
def chunkid (buf : List Nat) : ChunkId := ⟨crc32 buf, buf.length⟩

/-- One iteration of the `while` loop in `rollsum_chunks_crc32`: the chunk
length cut from the front of `buf` and the updated `done` flag. -/
def chunkStep (buf : List Nat) (done : Bool) : Nat × Bool :=
  if done then (min buf.length ROLLSUM_BLOB_MAX, true)
  else
    match bupsplit_find_ofs buf with
    | some o => (min o ROLLSUM_BLOB_MAX, false)
    | none => (min buf.length ROLLSUM_BLOB_MAX, true)

/-- The chunk sequence produced by the `while` loop of
`rollsum_chunks_crc32` (before insertion into the hash map), written with
explicit fuel; `fuel = buf.length` always suffices since every chunk is
nonempty. -/
def chunkSeqGo : Nat → List Nat → Bool → Nat → List Chunk
  | 0, _, _, _ => []
  | fuel + 1, buf, done, start =>
    if buf.isEmpty then []
    else
      let ofs := (chunkStep buf done).1
      ⟨start, buf.take ofs⟩ ::
        chunkSeqGo fuel (buf.drop ofs) (chunkStep buf done).2 (start + ofs)

/-- The ordered chunk sequence of a buffer. -/
def chunkSeq (buf : List Nat) : List Chunk := chunkSeqGo buf.length buf false 0

/-! ## rsync.rs: chunk index.  Rust builds `HashMap<ChunkId, Vec<Chunk>>`;
we model it as an association list in insertion order (lookups are
order-independent; where iteration order matters downstream it is passed
explicitly). -/

/-- Append chunk `c` to the group keyed `k`, creating the group if absent
(`ret.entry(chunkid).or_default().push(...)`). -/
def groupInsert (m : List (ChunkId × List Chunk)) (k : ChunkId) (c : Chunk) :
    List (ChunkId × List Chunk) :=
  match m with
  | [] => [(k, [c])]
  | (k0, cs) :: rest =>
    if k0 = k then (k0, cs ++ [c]) :: rest else (k0, cs) :: groupInsert rest k c

/-- `HashMap::get`. -/
def lookupGroup (m : List (ChunkId × List Chunk)) (k : ChunkId) : Option (List Chunk) :=
  match m with
  | [] => none
  | (k0, cs) :: rest => if k0 = k then some cs else lookupGroup rest k

/-- `rollsum_chunks_crc32(buf)`: group the chunk sequence by `ChunkId`. -/
def rollsum_chunks_crc32 (buf : List Nat) : List (ChunkId × List Chunk) :=
  (chunkSeq buf).foldl (fun m c => groupInsert m (chunkid c.buf) c) []

/-! ## rsync.rs: delta matcher -/

/-- The `RollsumDeltaStats` struct. -/
structure RollsumDeltaStats where
  matched_size : Nat
  unmatched_size : Nat
  crc_miss : Nat
  chunkid_collision : Nat
  src_chunks : Nat
  dest_chunks : Nat
  dest_duplicates : Nat
  dest_size : Nat
deriving DecidableEq

/-- Mutable state of the `dest_chunkset.retain` pass of `rollsum_delta`.
`matched` is the `BTreeMap<u64, Chunk>` (kept sorted by key).  The Rust
code can `panic!` on a duplicate destination offset and `assert!` that a
candidate source chunk is nonempty; both fatal branches are recorded as
flags here (execution past a set flag is irrelevant once the flag is
proved unreachable). -/
structure MatchState where
  matched : List (Nat × Chunk)
  matched_size : Nat
  crc_miss : Nat
  chunkid_collision : Nat
  panicked : Bool
  assertFailed : Bool
deriving DecidableEq

/-- `BTreeMap::contains_key` (the `Entry::Occupied` test). -/
def containsKey {α : Type} (m : List (Nat × α)) (k : Nat) : Bool :=
  m.any (fun p => p.1 == k)

/-- Insert into a key-sorted association list (the `BTreeMap` insert;
callers only insert fresh keys). -/
def insertSorted {α : Type} (m : List (Nat × α)) (k : Nat) (v : α) : List (Nat × α) :=
  match m with
  | [] => [(k, v)]
  | (k0, v0) :: rest =>
    if k < k0 then (k, v) :: (k0, v0) :: rest else (k0, v0) :: insertSorted rest k v

/-- The `for src_chunk in src_chunks.iter()` loop for one destination
chunk `dc`.  Returns the updated state and whether `dc` is kept in the
unmatched set (`true` = no byte-exact match claimed it). -/
def tryCandidates (st : MatchState) (dc : Chunk) : List Chunk → MatchState × Bool
  | [] => (st, true)
  | sc :: rest =>
    if containsKey st.matched dc.start then
      ({ st with panicked := true }, true)
    else
      let st1 := if sc.buf.length = 0 then { st with assertFailed := true } else st
      if sc.buf = dc.buf then
        ({ st1 with
            matched := insertSorted st1.matched dc.start sc
            matched_size := st1.matched_size + sc.buf.length }, false)
      else
        tryCandidates { st1 with chunkid_collision := st1.chunkid_collision + 1 } dc rest

/-- Classify one destination chunk against the source index. -/
def processDestChunk (srcSet : List (ChunkId × List Chunk)) (st : MatchState)
    (dc : Chunk) : MatchState × Bool :=
  match lookupGroup srcSet (chunkid dc.buf) with
  | some srcChunks => tryCandidates st dc srcChunks
  | none => ({ st with crc_miss := st.crc_miss + 1 }, true)

/-- The inner `dest_chunks.retain` over one group: returns the state and
the retained (unmatched) chunks, in order. -/
def processGroup (srcSet : List (ChunkId × List Chunk)) (st : MatchState) :
    List Chunk → MatchState × List Chunk
  | [] => (st, [])
  | dc :: rest =>
    let p1 := processDestChunk srcSet st dc
    let p2 := processGroup srcSet p1.1 rest
    (p2.1, if p1.2 then dc :: p2.2 else p2.2)

/-- The outer `dest_chunkset.retain` over all groups (in the iteration
order given by the list): groups whose chunks all matched are dropped. -/
def processGroups (srcSet : List (ChunkId × List Chunk)) (st : MatchState) :
    List (ChunkId × List Chunk) → MatchState × List (ChunkId × List Chunk)
  | [] => (st, [])
  | (k, cs) :: rest =>
    let p1 := processGroup srcSet st cs
    let p2 := processGroups srcSet p1.1 rest
    (p2.1, if p1.2.isEmpty then p2.2 else (k, p1.2) :: p2.2)

/-! ## rsync.rs: literal deduplicator -/

/-- Index of the first unique buffer equal to `b` (the linear scan in
`dedup_chunks`). -/
def findIdx (unique : List (List Nat)) (b : List Nat) : Option Nat :=
  match unique with
  | [] => none
  | u :: rest => if b = u then some 0 else (findIdx rest b).map (· + 1)

/-- Body of `dedup_chunks`, accumulating the unique-buffer list. -/
def dedupGo (input : List Chunk) (unique : List (List Nat)) :
    List (Nat × Nat) × List (List Nat) :=
  match input with
  | [] => ([], unique)
  | c :: rest =>
    match findIdx unique c.buf with
    | some i =>
      let p := dedupGo rest unique
      ((c.start, i) :: p.1, p.2)
    | none =>
      let p := dedupGo rest (unique ++ [c.buf])
      ((c.start, unique.length) :: p.1, p.2)

/-- `dedup_chunks(input)`: per-chunk `(start, unique index)` pairs plus the
unique buffers in first-seen order. -/
def dedup_chunks (input : List Chunk) : List (Nat × Nat) × List (List Nat) :=
  dedupGo input []

/-- Mutable state of the second `for` loop of `rollsum_delta` (over the
surviving unmatched groups). -/
structure UnmatchedState where
  unmatched_chunks : List (List Nat)
  unmatched : List (Nat × Nat)
  unmatched_size : Nat
  dest_duplicates : Nat
deriving DecidableEq

/-- One iteration of the unmatched-group loop of `rollsum_delta`. -/
def processUnmatchedGroup (st : UnmatchedState) (cs : List Chunk) : UnmatchedState :=
  let origlen := cs.length
  let size := cs.foldl (fun acc c => acc + c.buf.length) 0
  let ded := (dedup_chunks cs).1
  let bufs := (dedup_chunks cs).2
  let offset := st.unmatched_chunks.length
  { unmatched_chunks := st.unmatched_chunks ++ bufs
    unmatched := ded.foldl (fun m p => insertSorted m p.1 (p.2 + offset)) st.unmatched
    unmatched_size := st.unmatched_size + size
    dest_duplicates := st.dest_duplicates + (origlen - ded.length) }

/-- The `RollsumDelta` struct (plus the two fatal-branch flags). -/
structure RollsumDelta where
  matched : List (Nat × Chunk)
  unmatched_chunks : List (List Nat)
  unmatched : List (Nat × Nat)
  stats : RollsumDeltaStats
  panicked : Bool
  assertFailed : Bool
deriving DecidableEq

/-- The destination groups as visited in the iteration order `ord`
(each key of `ord` paired with its group, unknown keys skipped). -/
def orderedGroups (destSet : List (ChunkId × List Chunk)) (ord : List ChunkId) :
    List (ChunkId × List Chunk) :=
  ord.filterMap (fun k => (lookupGroup destSet k).map (fun cs => (k, cs)))

/-- `rollsum_delta(src, dest)`, parametrized by the `HashMap` iteration
order `ord` over the destination chunk groups (Rust's `HashMap` leaves
this order unspecified and randomizes it per process). -/
def rollsum_delta_ord (src dest : List Nat) (ord : List ChunkId) : RollsumDelta :=
  let srcSet := rollsum_chunks_crc32 src
  let destSet := rollsum_chunks_crc32 dest
  let st0 : MatchState := ⟨[], 0, 0, 0, false, false⟩
  let p := processGroups srcSet st0 (orderedGroups destSet ord)
  let ust := (p.2.map Prod.snd).foldl processUnmatchedGroup ⟨[], [], 0, 0⟩
  { matched := p.1.matched
    unmatched_chunks := ust.unmatched_chunks
    unmatched := ust.unmatched
    stats :=
      { matched_size := p.1.matched_size
        unmatched_size := ust.unmatched_size
        crc_miss := p.1.crc_miss
        chunkid_collision := p.1.chunkid_collision
        src_chunks := srcSet.length
        dest_chunks := destSet.length
        dest_duplicates := ust.dest_duplicates
        dest_size := dest.length }
    panicked := p.1.panicked
    assertFailed := p.1.assertFailed }

/-- The canonical (insertion-order) iteration order of the destination
groups. -/
def destOrd (dest : List Nat) : List ChunkId :=
  (rollsum_chunks_crc32 dest).map Prod.fst

/-- `rollsum_delta(src, dest)` with the canonical iteration order. -/
def rollsum_delta (src dest : List Nat) : RollsumDelta :=
  rollsum_delta_ord src dest (destOrd dest)

/-- A valid `HashMap` iteration order: some permutation of the
destination group keys. -/
def ValidOrd (dest : List Nat) (ord : List ChunkId) : Prop :=
  ord.Perm (destOrd dest)

/-! ## rsync.rs: patch encoder (`create_patchfile`).  The bytes modelled
here are the ones written into the `zstd::Encoder` (the compressor wraps
them opaquely and is external to this crate). -/

/-- The `PatchEntry` enum (variant order as declared: `CopyBuf` = 0,
`CopySource` = 1, which fixes the bincode tags). -/
inductive PatchEntry where
  | CopyBuf (start len : Nat)
  | CopySource (start len : Nat)
deriving DecidableEq

/-- The `Patch` struct. -/
structure Patch where
  chunks : List PatchEntry
deriving DecidableEq

/-- The `chunk_offsets` map of `create_patchfile`: byte offset of unique
buffer `i` inside the literal blob. -/
def chunkOffset (bufs : List (List Nat)) (i : Nat) : Nat :=
  ((bufs.take i).map List.length).sum

/-- `buflen` in `create_patchfile`: total literal blob length. -/
def totalLen (bufs : List (List Nat)) : Nat := (bufs.map List.length).sum

/-- The `zip_longest` loop of `create_patchfile` over the (ascending)
entries of `matched` and `unmatched`, keeping the destination offset each
pushed entry came from.  Note it pairs the i-th matched entry with the
i-th unmatched entry and only orders within each pair. -/
def copyBufEntry (bufs : List (List Nat)) (p : Nat × Nat) : Nat × PatchEntry :=
  (p.1, PatchEntry.CopyBuf (chunkOffset bufs p.2) (bufs.getD p.2 []).length)

/-- See `copyBufEntry`; the merge itself (structural on the matched list;
once the matched side is exhausted only `EitherOrBoth::Right` arms remain). -/
def zipLongestMerge (bufs : List (List Nat)) :
    List (Nat × Chunk) → List (Nat × Nat) → List (Nat × PatchEntry)
  | [], us => us.map (copyBufEntry bufs)
  | (ds, sc) :: ms, [] =>
    (ds, PatchEntry.CopySource sc.start sc.buf.length) :: zipLongestMerge bufs ms []
  | (ds, sc) :: ms, (us, bi) :: us1 =>
    let m := (ds, PatchEntry.CopySource sc.start sc.buf.length)
    let u := copyBufEntry bufs (us, bi)
    if ds < us then m :: u :: zipLongestMerge bufs ms us1
    else u :: m :: zipLongestMerge bufs ms us1

/-- The `(destination offset, instruction)` pairs of a delta's patch. -/
def patchPairsOf (d : RollsumDelta) : List (Nat × PatchEntry) :=
  zipLongestMerge d.unmatched_chunks d.matched d.unmatched

/-- The `(destination offset, instruction)` pairs built by
`create_patchfile(src, dest, ..)`. -/
def patchPairs (src dest : List Nat) : List (Nat × PatchEntry) :=
  patchPairsOf (rollsum_delta src dest)

/-- The `Patch` value serialized by `create_patchfile(src, dest, ..)`. -/
def createPatch (src dest : List Nat) : Patch :=
  ⟨(patchPairs src dest).map Prod.snd⟩

/-- The literal blob of a delta: the unique unmatched buffers
concatenated (this is what `chunk_offsets` indexes into). -/
def literalBlob (src dest : List Nat) : List Nat :=
  (rollsum_delta src dest).unmatched_chunks.flatten

/-- Little-endian 64-bit serialization (`write_u64::<LittleEndian>` and
bincode's fixed-width integer encoding). -/
def u64le (n : Nat) : List Nat := (List.range 8).map (fun i => n / 256 ^ i % 256)

/-- Little-endian 32-bit serialization (bincode enum variant tags). -/
def u32le (n : Nat) : List Nat := (List.range 4).map (fun i => n / 256 ^ i % 256)

/-- bincode 1.x default encoding of one `PatchEntry`: `u32` little-endian
variant index, then the two `u64` fields. -/
def encodeEntry : PatchEntry → List Nat
  | PatchEntry.CopyBuf s l => u32le 0 ++ u64le s ++ u64le l
  | PatchEntry.CopySource s l => u32le 1 ++ u64le s ++ u64le l

/-- bincode 1.x default encoding of `Patch`: `u64` little-endian element
count, then the encoded entries. -/
def bincodePatch (p : Patch) : List Nat :=
  u64le p.chunks.length ++ p.chunks.flatMap encodeEntry

/-- `HEADER = b"DELT"`. -/
def HEADER : List Nat := [68, 69, 76, 84]

/-- The byte stream `create_patchfile(src, dest, ..)` feeds into the zstd
encoder, with the destination groups visited in iteration order `ord`:
magic, literal blob length, then the bincode-serialized instruction list.
(The literal blob bytes themselves are never written — see the C2
analysis.) -/
def create_patchfile_ord (src dest : List Nat) (ord : List ChunkId) : List Nat :=
  let d := rollsum_delta_ord src dest ord
  HEADER ++ u64le (totalLen d.unmatched_chunks) ++
    bincodePatch ⟨(patchPairsOf d).map Prod.snd⟩

/-- `create_patchfile(src, dest, ..)` with the canonical iteration order. -/
def create_patchfile_bytes (src dest : List Nat) : List Nat :=
  create_patchfile_ord src dest (destOrd dest)

/-- Modelled from the spec (§4.6 / §6 wire format): the byte stream the
specification prescribes for the encoder — magic, literal blob length,
the literal blob bytes, then the instruction list.  Used to compare the
implementation against the specified format. -/
def spec_patch_stream (src dest : List Nat) : List Nat :=
  let d := rollsum_delta src dest
  HEADER ++ u64le (totalLen d.unmatched_chunks) ++ d.unmatched_chunks.flatten ++
    bincodePatch ⟨(patchPairsOf d).map Prod.snd⟩

/-- Modelled from the spec: the replay half of the patch codec
(`rsync::apply` is called from main.rs but its definition is not in
`src/`).  Per §4.6: iterate instructions in order, appending either
`source[source_offset .. source_offset+length]` or
`literal_blob[literal_offset .. literal_offset+length]`. -/
def apply_patch (src blob : List Nat) (entries : List PatchEntry) : List Nat :=
  entries.flatMap fun e =>
    match e with
    | PatchEntry.CopySource s l => (src.drop s).take l
    | PatchEntry.CopyBuf o l => (blob.drop o).take l

/-! ## Concrete inputs used by the counterexamples.

`bndry7` is a shortest buffer whose rollsum hits a chunk boundary exactly
at its end (no boundary is reachable in fewer than 7 bytes), so
`cxSrc = bndry7 ++ bndry7` chunks as two 7-byte chunks and
`cxDest = cxSrc ++ [1,2,3]` as those two chunks plus an unmatched 3-byte
tail. -/

/-- A shortest chunk-boundary buffer: `bupsplit_find_ofs` returns 7. -/
def bndry7 : List Nat := [253, 255, 255, 255, 161, 0, 0]

/-- Counterexample source: two identical boundary chunks. -/
def cxSrc : List Nat := bndry7 ++ bndry7

/-- Counterexample destination: the source plus an unmatched tail. -/
def cxDest : List Nat := cxSrc ++ [1, 2, 3]

/-- A second counterexample destination with two distinct unmatched chunk
groups (a 7-byte boundary chunk and a 3-byte tail). -/
def cxDest9 : List Nat := bndry7 ++ [1, 2, 3]

/-- "The ranges `[start, start + len)` of these chunks tile the region
beginning at `s` contiguously": each chunk starts where the previous one
ended. -/
def tilesFrom : Nat → List Chunk → Prop
  | _, [] => True
  | s, c :: cs => c.start = s ∧ tilesFrom (s + c.buf.length) cs

/-- Well-formedness of a rollsum state: sums reduced mod 2^32, a 64-byte
window of byte values, cursor in range.  `Rollsum.new` satisfies it and
`Rollsum.roll` with a byte preserves it. -/
def RollsumWF (r : Rollsum) : Prop :=
  r.s1 < U32MOD ∧ r.s2 < U32MOD ∧ r.window.length = 64 ∧ r.wofs < 64 ∧
    ∀ b ∈ r.window, b < 256

/-- Position `i ≥ 1` of `buf` is a candidate chunk boundary: after rolling
the first `i` bytes the low 13 bits of `s2` are all ones. -/
def IsBoundaryAt (buf : List Nat) (i : Nat) : Prop :=
  (rollsumRun (buf.take i)).s2 % BUP_BLOBSIZE = BUP_BLOBSIZE - 1

/-! ## Pure per-chunk descriptions of the matcher loop (used to
characterize `tryCandidates`/`processGroups`; the candidate scan is a
pure function of the source index and the destination chunk once the
duplicate-offset panic is known not to fire). -/

/-- First candidate whose bytes equal `b` (what the scan claims). -/
def firstMatch (b : List Nat) : List Chunk → Option Chunk
  | [] => none
  | sc :: rest => if sc.buf = b then some sc else firstMatch b rest

/-- Number of candidates byte-compared and rejected before the first
match (all of them if none matches) — the `chunkid_collision` increment. -/
def collCount (b : List Nat) : List Chunk → Nat
  | [] => 0
  | sc :: rest => if sc.buf = b then 0 else collCount b rest + 1

/-- Whether the scan sees an empty candidate (the `assert!(len > 0)`
failure), scanning up to and including the first match. -/
def sawEmpty (b : List Nat) : List Chunk → Bool
  | [] => false
  | sc :: rest =>
    if sc.buf.length = 0 then true else if sc.buf = b then false else sawEmpty b rest

/-- The source chunk a destination chunk matches, if any. -/
def chunkMatch (srcSet : List (ChunkId × List Chunk)) (dc : Chunk) : Option Chunk :=
  match lookupGroup srcSet (chunkid dc.buf) with
  | some cands => firstMatch dc.buf cands
  | none => none

/-- `chunkid_collision` increment contributed by one destination chunk. -/
def chunkColl (srcSet : List (ChunkId × List Chunk)) (dc : Chunk) : Nat :=
  match lookupGroup srcSet (chunkid dc.buf) with
  | some cands => collCount dc.buf cands
  | none => 0

/-- `crc_miss` increment contributed by one destination chunk. -/
def chunkMiss (srcSet : List (ChunkId × List Chunk)) (dc : Chunk) : Nat :=
  match lookupGroup srcSet (chunkid dc.buf) with
  | some _ => 0
  | none => 1

/-- Whether one destination chunk's scan hits the empty-candidate assert. -/
def chunkSawEmpty (srcSet : List (ChunkId × List Chunk)) (dc : Chunk) : Bool :=
  match lookupGroup srcSet (chunkid dc.buf) with
  | some cands => sawEmpty dc.buf cands
  | none => false

/-- The `(destination start, matched source chunk)` pairs a chunk list
contributes to the matched map. -/
def matchedPairs (srcSet : List (ChunkId × List Chunk)) (cs : List Chunk) :
    List (Nat × Chunk) :=
  cs.filterMap (fun dc => (chunkMatch srcSet dc).map (fun sc => (dc.start, sc)))

/-- The groups surviving the retain pass (those with at least one
unmatched chunk), in iteration order `ord` — the input to the second loop
of `rollsum_delta`. -/
def survivorGroups (src dest : List Nat) (ord : List ChunkId) :
    List (ChunkId × List Chunk) :=
  ((orderedGroups (rollsum_chunks_crc32 dest) ord).map
    (fun g => (g.1, g.2.filter
      (fun dc => (chunkMatch (rollsum_chunks_crc32 src) dc).isNone)))).filter
    (fun g => !g.2.isEmpty)

/-! ## Concrete theorems: the encoder bugs -/

/-- C1: the round-trip property fails on the code.  For
`cxSrc = bndry7 ++ bndry7` and `cxDest = cxSrc ++ [1,2,3]`, the encoder
emits the two copy-source instructions and the literal instruction in
the order dest-offset 0, 14, 7 (the `zip_longest` pairing), so replaying
the patch (per the spec's decode) yields `bndry7 ++ [1,2,3] ++ bndry7`,
not the destination. -/
theorem C1_roundtrip_fails :
    apply_patch cxSrc (literalBlob cxSrc cxDest) (createPatch cxSrc cxDest).chunks =
      bndry7 ++ [1, 2, 3] ++ bndry7 ∧
    apply_patch cxSrc (literalBlob cxSrc cxDest) (createPatch cxSrc cxDest).chunks ≠ cxDest := by
  decide

/-- C2: the serialized stream does not contain the literal blob bytes.
For `src = []`, `dest = [42]` the code writes the magic, the literal
length 1, and then immediately the bincode instruction list — the byte 42
is never written, so the stream differs from the spec's wire format. -/
theorem C2_literal_blob_not_written :
    create_patchfile_bytes [] [42] =
      HEADER ++ u64le 1 ++ bincodePatch ⟨[PatchEntry.CopyBuf 0 1]⟩ ∧
    (rollsum_delta [] [42]).unmatched_chunks.flatten = [42] ∧
    create_patchfile_bytes [] [42] ≠ spec_patch_stream [] [42] := by
  decide

/-- C3: the emitted instruction list is not in strictly increasing
destination-offset order: on `(cxSrc, cxDest)` the destination offsets
come out `[0, 14, 7]` because `zip_longest` pairs the i-th matched entry
with the i-th unmatched entry instead of merging the two sorted maps. -/
theorem C3_instructions_out_of_order :
    (patchPairs cxSrc cxDest).map Prod.fst = [0, 14, 7] ∧
    ¬ List.Chain' (· < ·) ((patchPairs cxSrc cxDest).map Prod.fst) := by
  have h1 : (patchPairs cxSrc cxDest).map Prod.fst = [0, 14, 7] := by decide
  refine ⟨h1, ?_⟩
  rw [h1]
  simp [List.chain'_cons]

/-- C6 counterexample: for the non-empty two-chunk buffer `cxSrc`,
`compute_delta(x, x)` yields two matched entries, not one entry covering
the whole buffer. -/
theorem C6_identity_two_entries :
    cxSrc ≠ [] ∧ (rollsum_delta cxSrc cxSrc).matched.length = 2 := by
  decide

/-- C9 counterexample: the encoded patch bytes depend on the `HashMap`
iteration order over the destination chunk groups.  On `src = []`,
`dest = cxDest9` (two distinct unmatched groups), the canonical order and
its reverse are both valid iteration orders yet produce different byte
streams (the literal-blob layout, hence the literal offsets, differ). -/
theorem C9_patch_bytes_depend_on_order :
    ValidOrd cxDest9 (destOrd cxDest9) ∧ ValidOrd cxDest9 (destOrd cxDest9).reverse ∧
    create_patchfile_ord [] cxDest9 (destOrd cxDest9) ≠
      create_patchfile_ord [] cxDest9 (destOrd cxDest9).reverse := by
  refine ⟨List.Perm.refl _, List.reverse_perm _, ?_⟩
  decide

/-! ## Chunking is a bounded partition -/

theorem findOfsAux_bounds : ∀ (l : List Nat) (r : Rollsum) (ofs o : Nat),
    findOfsAux r l ofs = some o → ofs + 1 ≤ o ∧ o ≤ ofs + l.length := by
  intro l
  induction l with
  | nil => intro r ofs o h; simp [findOfsAux] at h
  | cons x xs ih =>
    intro r ofs o h
    rw [findOfsAux] at h
    split at h
    · injection h with h
      simp only [List.length_cons]
      omega
    · have h2 := ih _ _ _ h
      simp only [List.length_cons]
      omega

theorem bupsplit_find_ofs_bounds (buf : List Nat) (o : Nat)
    (h : bupsplit_find_ofs buf = some o) : 1 ≤ o ∧ o ≤ buf.length := by
  have h2 := findOfsAux_bounds buf Rollsum.new 0 o h
  omega

theorem chunkStep_bounds (buf : List Nat) (done : Bool) (h : buf ≠ []) :
    1 ≤ (chunkStep buf done).1 ∧ (chunkStep buf done).1 ≤ buf.length ∧
      (chunkStep buf done).1 ≤ ROLLSUM_BLOB_MAX := by
  have hlen : 1 ≤ buf.length := by
    cases buf with
    | nil => simp at h
    | cons a l => simp
  have hmax : (1 : Nat) ≤ ROLLSUM_BLOB_MAX := by norm_num [ROLLSUM_BLOB_MAX]
  rw [chunkStep]
  split
  · simp only [Nat.min_def]
    split <;> omega
  · split
    · rename_i o ho
      have hb := bupsplit_find_ofs_bounds buf o ho
      simp only [Nat.min_def]
      split <;> omega
    · simp only [Nat.min_def]
      split <;> omega

theorem chunkSeqGo_spec : ∀ (fuel : Nat) (buf : List Nat) (done : Bool) (start : Nat),
    buf.length ≤ fuel →
    tilesFrom start (chunkSeqGo fuel buf done start) ∧
    ((chunkSeqGo fuel buf done start).map Chunk.buf).flatten = buf ∧
    ∀ c ∈ chunkSeqGo fuel buf done start,
      1 ≤ c.buf.length ∧ c.buf.length ≤ ROLLSUM_BLOB_MAX := by
  intro fuel
  induction fuel with
  | zero =>
    intro buf done start h
    have hb : buf = [] := by
      cases buf with
      | nil => rfl
      | cons a l => simp at h
    subst hb
    simp [chunkSeqGo, tilesFrom]
  | succ n ih =>
    intro buf done start h
    by_cases hb : buf = []
    · subst hb
      simp [chunkSeqGo, tilesFrom]
    · rw [chunkSeqGo]
      rw [if_neg (by simpa [List.isEmpty_iff] using hb)]
      obtain ⟨h1, h2, h3⟩ := chunkStep_bounds buf done hb
      have htl : (buf.take (chunkStep buf done).1).length = (chunkStep buf done).1 := by
        rw [List.length_take]
        omega
      have hdl : (buf.drop (chunkStep buf done).1).length ≤ n := by
        rw [List.length_drop]
        omega
      obtain ⟨ih1, ih2, ih3⟩ := ih (buf.drop (chunkStep buf done).1) (chunkStep buf done).2
        (start + (chunkStep buf done).1) hdl
      refine ⟨⟨rfl, ?_⟩, ?_, ?_⟩
      · simpa [htl] using ih1
      · simp only [List.map_cons, List.flatten_cons]
        rw [ih2, List.take_append_drop]
      · intro c hc
        simp only [List.mem_cons] at hc
        rcases hc with hc | hc
        · subst hc
          simp only [htl]
          exact ⟨h1, h3⟩
        · exact ih3 c hc

theorem tilesFrom_chain : ∀ (l : List Chunk) (s : Nat), tilesFrom s l →
    (∀ c ∈ l, 1 ≤ c.buf.length) → List.Chain' (· < ·) (l.map Chunk.start) := by
  intro l
  induction l with
  | nil => intro s _ _; simp
  | cons c rest ih =>
    intro s ht hlen
    obtain ⟨hc, ht2⟩ := ht
    have hch := ih (s + c.buf.length) ht2 (fun d hd => hlen d (List.mem_cons_of_mem _ hd))
    cases rest with
    | nil => simp
    | cons d rest2 =>
      obtain ⟨hd, _⟩ := ht2
      refine List.Chain'.cons ?_ hch
      have := hlen c (List.mem_cons_self _ _)
      omega

theorem chunkSeq_empty_iff (buf : List Nat) : chunkSeq buf = [] ↔ buf = [] := by
  constructor
  · intro h
    by_contra hb
    have hlen : 1 ≤ buf.length := by
      cases buf with
      | nil => simp at hb
      | cons a l => simp
    rw [chunkSeq] at h
    cases hf : buf.length with
    | zero => omega
    | succ n =>
      rw [hf, chunkSeqGo, if_neg (by simpa [List.isEmpty_iff] using hb)] at h
      simp at h
  · intro h
    subst h
    rfl

/-- C4: the chunker's output is a bounded partition — chunk start offsets
strictly increase, every chunk has length between 1 and
`ROLLSUM_BLOB_MAX = 32768`, the sequence is empty exactly for the empty
buffer, and the chunk ranges tile `[0, buf.length)` exactly (each chunk
starts where the previous ended, starting at 0, and the chunk payloads
concatenate back to the buffer). -/
theorem C4_chunking_is_bounded_partition (buf : List Nat) :
    List.Chain' (· < ·) ((chunkSeq buf).map Chunk.start) ∧
    (∀ c ∈ chunkSeq buf, 1 ≤ c.buf.length ∧ c.buf.length ≤ ROLLSUM_BLOB_MAX) ∧
    (chunkSeq buf = [] ↔ buf = []) ∧
    tilesFrom 0 (chunkSeq buf) ∧
    ((chunkSeq buf).map Chunk.buf).flatten = buf := by
  obtain ⟨h1, h2, h3⟩ := chunkSeqGo_spec buf.length buf false 0 (Nat.le_refl _)
  exact ⟨tilesFrom_chain _ 0 h1 (fun c hc => (h3 c hc).1), h3, chunkSeq_empty_iff buf, h1, h2⟩

/-- Witness for C4 at the concrete buffer `[42]` (whose single chunk is
`⟨0, [42]⟩`). -/
theorem C4_chunking_is_bounded_partition_witness :
    List.Chain' (· < ·) ((chunkSeq [42]).map Chunk.start) ∧
    (1 ≤ (Chunk.mk 0 [42]).buf.length ∧ (Chunk.mk 0 [42]).buf.length ≤ ROLLSUM_BLOB_MAX) := by
  exact ⟨(C4_chunking_is_bounded_partition [42]).1,
    (C4_chunking_is_bounded_partition [42]).2.1 ⟨0, [42]⟩ (by decide)⟩

theorem U32MOD_eq : U32MOD = 4294967296 := rfl

theorem BUP_WINDOWSIZE_eq : BUP_WINDOWSIZE = 64 := rfl

theorem BUP_BLOBSIZE_eq : BUP_BLOBSIZE = 8192 := rfl

theorem ROLLSUM_CHAR_OFFSET_eq : ROLLSUM_CHAR_OFFSET = 31 := rfl

theorem boundaryHit_iff (r : Rollsum) :
    boundaryHit r = true ↔ r.s2 % BUP_BLOBSIZE = BUP_BLOBSIZE - 1 := by
  have hb : BUP_BLOBSIZE = 2 ^ 13 := rfl
  rw [boundaryHit, beq_iff_eq, hb]
  have h1 : Nat.land r.s2 (2 ^ 13 - 1) = r.s2 % 2 ^ 13 := Nat.and_pow_two_sub_one_eq_mod _ _
  have h2 : Nat.land (U32MOD - 1) (2 ^ 13 - 1) = 2 ^ 13 - 1 := by decide
  rw [h1, h2]

theorem windowByte_lt (r : Rollsum) (hwf : RollsumWF r) : r.window.getD r.wofs 0 < 256 := by
  obtain ⟨-, -, -, -, h5⟩ := hwf
  rcases Nat.lt_or_ge r.wofs r.window.length with hlt | hge
  · rw [List.getD_eq_getElem r.window 0 hlt]
    exact h5 _ (List.getElem_mem hlt)
  · rw [List.getD_eq_default r.window 0 hge]
    omega

theorem roll_s1_eq (r : Rollsum) (ch : Nat) (hwf : RollsumWF r) (hch : ch < 256) :
    (r.roll ch).s1 =
      (r.s1 + (ch + ROLLSUM_CHAR_OFFSET) + U32MOD
        - (r.window.getD r.wofs 0 + ROLLSUM_CHAR_OFFSET)) % U32MOD := by
  have hold := windowByte_lt r hwf
  obtain ⟨h1, h2, -, -, -⟩ := hwf
  show wadd r.s1 (wsub ch (r.window.getD r.wofs 0)) = _
  generalize hg : r.window.getD r.wofs 0 = w at hold ⊢
  simp only [wadd, wsub, U32MOD_eq, ROLLSUM_CHAR_OFFSET_eq] at h1 h2 ⊢
  omega

theorem roll_s2_eq (r : Rollsum) (ch : Nat) (hwf : RollsumWF r) (hch : ch < 256) :
    (r.roll ch).s2 =
      (r.s2 + ((r.roll ch).s1 + U32MOD
        - BUP_WINDOWSIZE * (r.window.getD r.wofs 0 + ROLLSUM_CHAR_OFFSET))) % U32MOD := by
  have hold := windowByte_lt r hwf
  obtain ⟨h1, h2, -, -, -⟩ := hwf
  show wadd r.s2 (wsub (wadd r.s1 (wsub ch (r.window.getD r.wofs 0)))
      (BUP_WINDOWSIZE * (r.window.getD r.wofs 0 + ROLLSUM_CHAR_OFFSET))) =
    (r.s2 + (wadd r.s1 (wsub ch (r.window.getD r.wofs 0)) + U32MOD
        - BUP_WINDOWSIZE * (r.window.getD r.wofs 0 + ROLLSUM_CHAR_OFFSET))) % U32MOD
  generalize hg : r.window.getD r.wofs 0 = w at hold ⊢
  simp only [wadd, wsub, U32MOD_eq, ROLLSUM_CHAR_OFFSET_eq, BUP_WINDOWSIZE_eq] at h1 h2 ⊢
  omega

theorem roll_window_eq (r : Rollsum) (ch : Nat) :
    (r.roll ch).window = r.window.set r.wofs ch ∧
    (r.roll ch).wofs = (r.wofs + 1) % BUP_WINDOWSIZE := ⟨rfl, rfl⟩

theorem roll_wf (r : Rollsum) (ch : Nat) (hwf : RollsumWF r) (hch : ch < 256) :
    RollsumWF (r.roll ch) := by
  obtain ⟨h1, h2, h3, h4, h5⟩ := hwf
  have hM : 0 < U32MOD := by rw [U32MOD_eq]; omega
  refine ⟨Nat.mod_lt _ hM, Nat.mod_lt _ hM, ?_, ?_, ?_⟩
  · show (r.window.set r.wofs ch).length = 64
    rw [List.length_set]
    exact h3
  · show (r.wofs + 1) % BUP_WINDOWSIZE < 64
    rw [BUP_WINDOWSIZE_eq]
    omega
  · intro b hb
    rcases List.mem_or_eq_of_mem_set hb with hmem | heq
    · exact h5 _ hmem
    · omega

theorem new_wf : RollsumWF Rollsum.new := by
  refine ⟨by decide, by decide, by decide, by decide, ?_⟩
  intro b hb
  rw [List.eq_of_mem_replicate hb]
  omega

theorem rollsumRun_snoc (p : List Nat) (x : Nat) :
    rollsumRun (p ++ [x]) = (rollsumRun p).roll x := by
  simp [rollsumRun, List.foldl_append]

theorem take_append_succ (p : List Nat) (x : Nat) (xs : List Nat) :
    (p ++ x :: xs).take (p.length + 1) = p ++ [x] := by
  rw [List.take_append_eq_append_take]
  simp

theorem findOfsAux_spec : ∀ (l p : List Nat),
    (∀ i, findOfsAux (rollsumRun p) l p.length = some i →
      p.length + 1 ≤ i ∧ i ≤ p.length + l.length ∧
      boundaryHit (rollsumRun ((p ++ l).take i)) = true ∧
      ∀ j, p.length + 1 ≤ j → j < i → boundaryHit (rollsumRun ((p ++ l).take j)) = false) ∧
    (findOfsAux (rollsumRun p) l p.length = none →
      ∀ j, p.length + 1 ≤ j → j ≤ p.length + l.length →
        boundaryHit (rollsumRun ((p ++ l).take j)) = false) := by
  intro l
  induction l with
  | nil =>
    intro p
    constructor
    · intro i h
      simp [findOfsAux] at h
    · intro _ j hj1 hj2
      simp only [List.length_nil] at hj2
      omega
  | cons x xs ih =>
    intro p
    have hlen : (p ++ [x]).length = p.length + 1 := by simp
    have happ : p ++ x :: xs = (p ++ [x]) ++ xs := by simp
    have hrun := rollsumRun_snoc p x
    have htake := take_append_succ p x xs
    have hunf : findOfsAux (rollsumRun p) (x :: xs) p.length =
        if boundaryHit ((rollsumRun p).roll x) then some (p.length + 1)
        else findOfsAux ((rollsumRun p).roll x) xs (p.length + 1) := rfl
    obtain ⟨ihs, ihn⟩ := ih (p ++ [x])
    rw [hlen, hrun] at ihs ihn
    by_cases hb : boundaryHit ((rollsumRun p).roll x) = true
    · constructor
      · intro i h
        rw [hunf, if_pos hb] at h
        injection h with h
        subst h
        refine ⟨Nat.le_refl _, by simp, ?_, ?_⟩
        · rw [htake, rollsumRun_snoc]
          exact hb
        · intro j hj1 hj2
          omega
      · intro h
        rw [hunf, if_pos hb] at h
        exact absurd h (by simp)
    · have hbf : boundaryHit ((rollsumRun p).roll x) = false := by
        exact Bool.not_eq_true _ ▸ (eq_false_of_ne_true hb)
      constructor
      · intro i h
        rw [hunf, if_neg hb] at h
        obtain ⟨hi1, hi2, hi3, hi4⟩ := ihs i h
        refine ⟨by omega, by simp only [List.length_cons]; omega, ?_, ?_⟩
        · rw [happ]
          exact hi3
        · intro j hj1 hj2
          rcases Nat.eq_or_lt_of_le hj1 with heq | hlt
        -- j = p.length + 1 or j > p.length + 1
          · rw [← heq, htake, rollsumRun_snoc]
            exact hbf
          · rw [happ]
            exact hi4 j (by omega) hj2
      · intro h j hj1 hj2
        rw [hunf, if_neg hb] at h
        rcases Nat.eq_or_lt_of_le hj1 with heq | hlt
        · rw [← heq, htake, rollsumRun_snoc]
          exact hbf
        · rw [happ]
          simp only [List.length_cons] at hj2
          exact ihn h j (by omega) (by omega)

theorem bupsplit_find_ofs_spec (buf : List Nat) :
    (∀ i, bupsplit_find_ofs buf = some i →
      1 ≤ i ∧ i ≤ buf.length ∧ IsBoundaryAt buf i ∧
      ∀ j, 1 ≤ j → j < i → ¬ IsBoundaryAt buf j) ∧
    (bupsplit_find_ofs buf = none →
      ∀ j, 1 ≤ j → j ≤ buf.length → ¬ IsBoundaryAt buf j) := by
  have h := findOfsAux_spec buf []
  simp only [List.length_nil, List.nil_append, Nat.zero_add] at h
  obtain ⟨hs, hn⟩ := h
  constructor
  · intro i hi
    obtain ⟨h1, h2, h3, h4⟩ := hs i hi
    refine ⟨h1, h2, (boundaryHit_iff _).mp h3, ?_⟩
    intro j hj1 hj2 hcontra
    have := h4 j hj1 hj2
    rw [IsBoundaryAt] at hcontra
    rw [(boundaryHit_iff _).symm] at hcontra
    rw [this] at hcontra
    exact absurd hcontra (by simp)
  · intro hnone j hj1 hj2 hcontra
    have := hn hnone j hj1 hj2
    rw [IsBoundaryAt] at hcontra
    rw [(boundaryHit_iff _).symm] at hcontra
    rw [this] at hcontra
    exact absurd hcontra (by simp)

/-- C5 -/
theorem C5_rolling_checksum_spec :
    (∀ (r : Rollsum) (ch : Nat), RollsumWF r → ch < 256 →
      (r.roll ch).s1 =
        (r.s1 + (ch + ROLLSUM_CHAR_OFFSET) + U32MOD
          - (r.window.getD r.wofs 0 + ROLLSUM_CHAR_OFFSET)) % U32MOD ∧
      (r.roll ch).s2 =
        (r.s2 + ((r.roll ch).s1 + U32MOD
          - BUP_WINDOWSIZE * (r.window.getD r.wofs 0 + ROLLSUM_CHAR_OFFSET))) % U32MOD ∧
      (r.roll ch).window = r.window.set r.wofs ch ∧
      (r.roll ch).wofs = (r.wofs + 1) % BUP_WINDOWSIZE ∧
      RollsumWF (r.roll ch)) ∧
    (BUP_WINDOWSIZE = 64 ∧ ROLLSUM_CHAR_OFFSET = 31 ∧
      Rollsum.new.window = List.replicate 64 0 ∧ RollsumWF Rollsum.new) ∧
    ∀ buf : List Nat,
      (∀ i, bupsplit_find_ofs buf = some i →
        1 ≤ i ∧ i ≤ buf.length ∧ IsBoundaryAt buf i ∧
        ∀ j, 1 ≤ j → j < i → ¬ IsBoundaryAt buf j) ∧
      (bupsplit_find_ofs buf = none →
        ∀ j, 1 ≤ j → j ≤ buf.length → ¬ IsBoundaryAt buf j) := by
  refine ⟨?_, ⟨rfl, rfl, rfl, new_wf⟩, bupsplit_find_ofs_spec⟩
  intro r ch hwf hch
  exact ⟨roll_s1_eq r ch hwf hch, roll_s2_eq r ch hwf hch, rfl, rfl, roll_wf r ch hwf hch⟩

theorem C5_rolling_checksum_spec_witness :
    ((Rollsum.new.roll 42).s1 =
      (Rollsum.new.s1 + (42 + ROLLSUM_CHAR_OFFSET) + U32MOD
        - (Rollsum.new.window.getD Rollsum.new.wofs 0 + ROLLSUM_CHAR_OFFSET)) % U32MOD) ∧
    (1 ≤ 7 ∧ 7 ≤ bndry7.length ∧ IsBoundaryAt bndry7 7 ∧
      ∀ j, 1 ≤ j → j < 7 → ¬ IsBoundaryAt bndry7 j) :=
  ⟨(C5_rolling_checksum_spec.1 Rollsum.new 42 new_wf (by decide)).1,
   (C5_rolling_checksum_spec.2.2 bndry7).1 7 (by decide)⟩

theorem containsKey_iff {α : Type} (m : List (Nat × α)) (k : Nat) :
    containsKey m k = true ↔ k ∈ m.map Prod.fst := by
  induction m with
  | nil => simp [containsKey]
  | cons p rest ih =>
    simp only [containsKey, List.any_cons, List.map_cons, List.mem_cons, Bool.or_eq_true,
      beq_iff_eq] at *
    rw [ih]
    constructor
    · rintro (h | h)
      · exact Or.inl h.symm
      · exact Or.inr h
    · rintro (h | h)
      · exact Or.inl h.symm
      · exact Or.inr h

theorem tryCandidates_spec : ∀ (cands : List Chunk) (st : MatchState) (dc : Chunk),
    containsKey st.matched dc.start = false →
    (tryCandidates st dc cands).2 = (firstMatch dc.buf cands).isNone ∧
    (tryCandidates st dc cands).1.matched =
      (match firstMatch dc.buf cands with
       | some sc => insertSorted st.matched dc.start sc
       | none => st.matched) ∧
    (tryCandidates st dc cands).1.matched_size =
      st.matched_size +
        (match firstMatch dc.buf cands with
         | some sc => sc.buf.length
         | none => 0) ∧
    (tryCandidates st dc cands).1.crc_miss = st.crc_miss ∧
    (tryCandidates st dc cands).1.chunkid_collision =
      st.chunkid_collision + collCount dc.buf cands ∧
    (tryCandidates st dc cands).1.panicked = st.panicked ∧
    (tryCandidates st dc cands).1.assertFailed = (st.assertFailed || sawEmpty dc.buf cands) := by
  intro cands
  induction cands with
  | nil =>
    intro st dc hck
    simp [tryCandidates, firstMatch, collCount, sawEmpty]
  | cons sc rest ih =>
    intro st dc hck
    rw [tryCandidates, hck]
    simp only [Bool.false_eq_true, if_false]
    by_cases hz : sc.buf.length = 0
    · rw [if_pos hz]
      by_cases hm : sc.buf = dc.buf
      · rw [if_pos hm]
        simp only [firstMatch, hm, if_pos rfl, collCount, sawEmpty, hz, if_pos hz]
        simp [firstMatch, hm, collCount, sawEmpty, hz]
        right
        rw [← hm]
        exact List.length_eq_zero.mp hz
      · rw [if_neg hm]
        have I := ih { st with assertFailed := true, chunkid_collision := st.chunkid_collision + 1 }
          dc hck
        obtain ⟨i1, i2, i3, i4, i5, i6, i7⟩ := I
        refine ⟨by rw [i1, firstMatch, if_neg hm], ?_, ?_, by rw [i4], ?_, by rw [i6], ?_⟩
        · rw [i2]
          simp [firstMatch, hm]
        · rw [i3]
          simp [firstMatch, hm]
        · rw [i5]
          simp only [collCount, if_neg hm]
          omega
        · rw [i7]
          simp [sawEmpty, hz]
    · rw [if_neg hz]
      by_cases hm : sc.buf = dc.buf
      · rw [if_pos hm]
        simp [firstMatch, hm, collCount, sawEmpty, hz]
        intro h
        rw [hm, h] at hz
        simp at hz
      · rw [if_neg hm]
        have I := ih { st with chunkid_collision := st.chunkid_collision + 1 } dc hck
        obtain ⟨i1, i2, i3, i4, i5, i6, i7⟩ := I
        refine ⟨by rw [i1, firstMatch, if_neg hm], ?_, ?_, by rw [i4], ?_, by rw [i6], ?_⟩
        · rw [i2]
          simp [firstMatch, hm]
        · rw [i3]
          simp [firstMatch, hm]
        · rw [i5]
          simp only [collCount, if_neg hm]
          omega
        · rw [i7]
          simp [sawEmpty, hz, hm]

theorem insertSorted_keys {α : Type} : ∀ (m : List (Nat × α)) (k : Nat) (v : α),
    ((insertSorted m k v).map Prod.fst).Perm (k :: m.map Prod.fst) := by
  intro m k v
  induction m with
  | nil => simp [insertSorted]
  | cons p rest ih =>
    rw [insertSorted]
    split
    · simp
    · simp only [List.map_cons]
      refine List.Perm.trans (List.Perm.cons p.1 ih) ?_
      exact List.Perm.swap _ _ _

theorem processDestChunk_spec (srcSet : List (ChunkId × List Chunk)) (st : MatchState)
    (dc : Chunk) (hck : containsKey st.matched dc.start = false) :
    (processDestChunk srcSet st dc).2 = (chunkMatch srcSet dc).isNone ∧
    (processDestChunk srcSet st dc).1.matched =
      (match chunkMatch srcSet dc with
       | some sc => insertSorted st.matched dc.start sc
       | none => st.matched) ∧
    (processDestChunk srcSet st dc).1.matched_size =
      st.matched_size +
        (match chunkMatch srcSet dc with
         | some sc => sc.buf.length
         | none => 0) ∧
    (processDestChunk srcSet st dc).1.crc_miss = st.crc_miss + chunkMiss srcSet dc ∧
    (processDestChunk srcSet st dc).1.chunkid_collision =
      st.chunkid_collision + chunkColl srcSet dc ∧
    (processDestChunk srcSet st dc).1.panicked = st.panicked ∧
    (processDestChunk srcSet st dc).1.assertFailed =
      (st.assertFailed || chunkSawEmpty srcSet dc) := by
  rw [processDestChunk]
  cases hlk : lookupGroup srcSet (chunkid dc.buf) with
  | none => simp [chunkMatch, chunkMiss, chunkColl, chunkSawEmpty, hlk]
  | some cands =>
    have h := tryCandidates_spec cands st dc hck
    simp only [chunkMatch, chunkMiss, chunkColl, chunkSawEmpty, hlk]
    exact ⟨h.1, h.2.1, h.2.2.1, by rw [h.2.2.2.1, Nat.add_zero], h.2.2.2.2.1,
      h.2.2.2.2.2.1, h.2.2.2.2.2.2⟩

theorem processGroup_spec (srcSet : List (ChunkId × List Chunk)) :
    ∀ (cs : List Chunk) (st : MatchState),
    (cs.map Chunk.start).Nodup →
    (∀ dc ∈ cs, dc.start ∉ st.matched.map Prod.fst) →
    (processGroup srcSet st cs).2 =
      cs.filter (fun dc => (chunkMatch srcSet dc).isNone) ∧
    (processGroup srcSet st cs).1.matched =
      (matchedPairs srcSet cs).foldl (fun m p => insertSorted m p.1 p.2) st.matched ∧
    (processGroup srcSet st cs).1.matched_size =
      st.matched_size + ((matchedPairs srcSet cs).map (fun p => p.2.buf.length)).sum ∧
    (processGroup srcSet st cs).1.crc_miss = st.crc_miss + (cs.map (chunkMiss srcSet)).sum ∧
    (processGroup srcSet st cs).1.chunkid_collision =
      st.chunkid_collision + (cs.map (chunkColl srcSet)).sum ∧
    (processGroup srcSet st cs).1.panicked = st.panicked ∧
    (processGroup srcSet st cs).1.assertFailed =
      (st.assertFailed || cs.any (chunkSawEmpty srcSet)) ∧
    ((processGroup srcSet st cs).1.matched.map Prod.fst).Perm
      ((matchedPairs srcSet cs).map Prod.fst ++ st.matched.map Prod.fst) := by
  intro cs
  induction cs with
  | nil =>
    intro st _ _
    simp [processGroup, matchedPairs]
  | cons dc rest ih =>
    intro st h1 h2
    have hck : containsKey st.matched dc.start = false := by
      rw [← Bool.not_eq_true]
      intro hc
      exact h2 dc (List.mem_cons_self _ _) ((containsKey_iff _ _).mp hc)
    obtain ⟨d1, d2, d3, d4, d5, d6, d7⟩ := processDestChunk_spec srcSet st dc hck
    have h1r : (rest.map Chunk.start).Nodup := by
      simp only [List.map_cons, List.nodup_cons] at h1
      exact h1.2
    have hdcne : dc.start ∉ rest.map Chunk.start := by
      simp only [List.map_cons, List.nodup_cons] at h1
      exact h1.1
    have h2r : ∀ dc2 ∈ rest, dc2.start ∉ (processDestChunk srcSet st dc).1.matched.map Prod.fst := by
      intro dc2 hdc2
      rw [d2]
      cases hcm : chunkMatch srcSet dc with
      | none =>
        exact h2 dc2 (List.mem_cons_of_mem _ hdc2)
      | some sc =>
        rw [(insertSorted_keys st.matched dc.start sc).mem_iff]
        intro hmem
        rcases List.mem_cons.mp hmem with heq | hmem
        · exact hdcne (heq ▸ List.mem_map_of_mem Chunk.start hdc2)
        · exact h2 dc2 (List.mem_cons_of_mem _ hdc2) hmem
    obtain ⟨i1, i2, i3, i4, i5, i6, i7, i8⟩ := ih (processDestChunk srcSet st dc).1 h1r h2r
    have hmp : matchedPairs srcSet (dc :: rest) =
        (match chunkMatch srcSet dc with
         | some sc => (dc.start, sc) :: matchedPairs srcSet rest
         | none => matchedPairs srcSet rest) := by
      rw [matchedPairs, List.filterMap_cons]
      cases chunkMatch srcSet dc <;> simp [matchedPairs]
    rw [processGroup]
    refine ⟨?_, ?_, ?_, ?_, ?_, ?_, ?_, ?_⟩
    · rw [d1, i1, List.filter_cons]
    · rw [i2, hmp]
      cases hcm : chunkMatch srcSet dc with
      | none => rw [d2, hcm]
      | some sc =>
        rw [List.foldl_cons, d2, hcm]
    · rw [i3, d3, hmp]
      cases hcm : chunkMatch srcSet dc with
      | none => simp [hcm]
      | some sc => simp [hcm]; omega
    · rw [i4, d4]
      simp only [List.map_cons, List.sum_cons]
      omega
    · rw [i5, d5]
      simp only [List.map_cons, List.sum_cons]
      omega
    · rw [i6, d6]
    · rw [i7, d7]
      simp [Bool.or_assoc]
    · refine i8.trans ?_
      rw [hmp]
      cases hcm : chunkMatch srcSet dc with
      | none =>
        rw [d2, hcm]
      | some sc =>
        rw [d2, hcm]
        simp only [List.map_cons]
        refine (List.Perm.append_left _ (insertSorted_keys st.matched dc.start sc)).trans ?_
        exact List.perm_middle

theorem matchedPairs_fst_mem (srcSet : List (ChunkId × List Chunk)) (cs : List Chunk) :
    ∀ p ∈ matchedPairs srcSet cs, p.1 ∈ cs.map Chunk.start := by
  intro p hp
  rw [matchedPairs] at hp
  obtain ⟨dc, hdc, hf⟩ := List.mem_filterMap.mp hp
  cases hcm : chunkMatch srcSet dc with
  | none =>
    rw [hcm] at hf
    exact Option.noConfusion hf
  | some sc =>
    rw [hcm] at hf
    have hf2 : (dc.start, sc) = p := by simpa using hf
    rw [← hf2]
    exact List.mem_map_of_mem Chunk.start hdc

theorem processGroups_spec (srcSet : List (ChunkId × List Chunk)) :
    ∀ (groups : List (ChunkId × List Chunk)) (st : MatchState),
    ((groups.flatMap Prod.snd).map Chunk.start).Nodup →
    (∀ dc ∈ groups.flatMap Prod.snd, dc.start ∉ st.matched.map Prod.fst) →
    (processGroups srcSet st groups).2 =
      (groups.map (fun g => (g.1, g.2.filter (fun dc => (chunkMatch srcSet dc).isNone)))).filter
        (fun g => !g.2.isEmpty) ∧
    (processGroups srcSet st groups).1.matched =
      (matchedPairs srcSet (groups.flatMap Prod.snd)).foldl
        (fun m p => insertSorted m p.1 p.2) st.matched ∧
    (processGroups srcSet st groups).1.matched_size =
      st.matched_size +
        ((matchedPairs srcSet (groups.flatMap Prod.snd)).map (fun p => p.2.buf.length)).sum ∧
    (processGroups srcSet st groups).1.crc_miss =
      st.crc_miss + ((groups.flatMap Prod.snd).map (chunkMiss srcSet)).sum ∧
    (processGroups srcSet st groups).1.chunkid_collision =
      st.chunkid_collision + ((groups.flatMap Prod.snd).map (chunkColl srcSet)).sum ∧
    (processGroups srcSet st groups).1.panicked = st.panicked ∧
    (processGroups srcSet st groups).1.assertFailed =
      (st.assertFailed || (groups.flatMap Prod.snd).any (chunkSawEmpty srcSet)) ∧
    ((processGroups srcSet st groups).1.matched.map Prod.fst).Perm
      ((matchedPairs srcSet (groups.flatMap Prod.snd)).map Prod.fst ++
        st.matched.map Prod.fst) := by
  intro groups
  induction groups with
  | nil =>
    intro st _ _
    refine ⟨rfl, rfl, by simp [processGroups, matchedPairs], by simp [processGroups],
      by simp [processGroups], rfl, by simp [processGroups], by simp [processGroups, matchedPairs]⟩
  | cons g gs ih =>
    intro st h1 h2
    obtain ⟨k, cs⟩ := g
    have hfm : ((k, cs) :: gs).flatMap Prod.snd = cs ++ gs.flatMap Prod.snd := by
      simp [List.flatMap_cons]
    rw [hfm] at h1 h2
    rw [List.map_append, List.nodup_append] at h1
    obtain ⟨h1cs, h1gs, h1disj⟩ := h1
    have h2cs : ∀ dc ∈ cs, dc.start ∉ st.matched.map Prod.fst := by
      intro dc hdc
      exact h2 dc (List.mem_append_left _ hdc)
    obtain ⟨g1, g2, g3, g4, g5, g6, g7, g8⟩ := processGroup_spec srcSet cs st h1cs h2cs
    have h2gs : ∀ dc ∈ gs.flatMap Prod.snd,
        dc.start ∉ (processGroup srcSet st cs).1.matched.map Prod.fst := by
      intro dc hdc
      rw [g8.mem_iff]
      rw [List.mem_append]
      rintro (hmem | hmem)
      · obtain ⟨p, hp, hpe⟩ := List.mem_map.mp hmem
        have := matchedPairs_fst_mem srcSet cs p hp
        rw [hpe] at this
        exact h1disj this (List.mem_map_of_mem Chunk.start hdc)
      · exact h2 dc (List.mem_append_right _ hdc) hmem
    obtain ⟨i1, i2, i3, i4, i5, i6, i7, i8⟩ := ih (processGroup srcSet st cs).1 h1gs h2gs
    have hmpa : matchedPairs srcSet (cs ++ gs.flatMap Prod.snd) =
        matchedPairs srcSet cs ++ matchedPairs srcSet (gs.flatMap Prod.snd) := by
      rw [matchedPairs, List.filterMap_append]
      rfl
    rw [processGroups]
    refine ⟨?_, ?_, ?_, ?_, ?_, ?_, ?_, ?_⟩
    · rw [i1, g1, List.map_cons, List.filter_cons]
      by_cases he : (cs.filter (fun dc => (chunkMatch srcSet dc).isNone)).isEmpty
      · rw [if_pos he]
        simp [he]
      · rw [if_neg he]
        simp only [Bool.not_eq_true] at he
        simp [he]
    · rw [i2, g2, hfm, hmpa, List.foldl_append]
    · rw [i3, g3, hfm, hmpa]
      simp only [List.map_append, List.sum_append]
      omega
    · rw [i4, g4, hfm]
      simp only [List.map_append, List.sum_append]
      omega
    · rw [i5, g5, hfm]
      simp only [List.map_append, List.sum_append]
      omega
    · rw [i6, g6]
    · rw [i7, g7, hfm, List.any_append]
      simp [Bool.or_assoc]
    · rw [hfm, hmpa]
      refine i8.trans ?_
      refine (List.Perm.append_left _ g8).trans ?_
      rw [List.map_append, List.append_assoc]
      exact List.perm_append_comm_assoc _ _ _

theorem groupInsert_flatMap (m : List (ChunkId × List Chunk)) (k : ChunkId) (c : Chunk) :
    ((groupInsert m k c).flatMap Prod.snd).Perm (m.flatMap Prod.snd ++ [c]) := by
  induction m with
  | nil => simp [groupInsert]
  | cons p rest ih =>
    rw [groupInsert]
    split
    · simp only [List.flatMap_cons, List.append_assoc]
      exact List.Perm.append_left _ List.perm_append_comm
    · simp only [List.flatMap_cons, List.append_assoc]
      exact List.Perm.append_left _ ih

theorem foldl_groupInsert_flatMap : ∀ (cs : List Chunk) (m : List (ChunkId × List Chunk)),
    ((cs.foldl (fun m c => groupInsert m (chunkid c.buf) c) m).flatMap Prod.snd).Perm
      (m.flatMap Prod.snd ++ cs) := by
  intro cs
  induction cs with
  | nil => simp
  | cons c rest ih =>
    intro m
    rw [List.foldl_cons]
    refine (ih (groupInsert m (chunkid c.buf) c)).trans ?_
    refine (List.Perm.append_right _ (groupInsert_flatMap m (chunkid c.buf) c)).trans ?_
    rw [List.append_assoc]
    exact List.Perm.append_left _ (List.Perm.refl _)

theorem grouping_flatMap_perm (buf : List Nat) :
    ((rollsum_chunks_crc32 buf).flatMap Prod.snd).Perm (chunkSeq buf) := by
  have h := foldl_groupInsert_flatMap (chunkSeq buf) []
  simpa [rollsum_chunks_crc32] using h

theorem groupInsert_keys (m : List (ChunkId × List Chunk)) (k : ChunkId) (c : Chunk) :
    (groupInsert m k c).map Prod.fst =
      m.map Prod.fst ++ (if k ∈ m.map Prod.fst then [] else [k]) := by
  induction m with
  | nil => simp [groupInsert]
  | cons p rest ih =>
    rw [groupInsert]
    split
    · rename_i he
      simp [he]
    · rename_i he
      have hkp : ¬ k = p.1 := fun hc => he hc.symm
      simp only [List.map_cons, ih, List.mem_cons]
      by_cases hm : k ∈ rest.map Prod.fst
      · simp [hm, hkp]
      · simp [hm, hkp]

theorem groupInsert_keys_nodup (m : List (ChunkId × List Chunk)) (k : ChunkId) (c : Chunk)
    (h : (m.map Prod.fst).Nodup) : ((groupInsert m k c).map Prod.fst).Nodup := by
  rw [groupInsert_keys]
  by_cases hm : k ∈ m.map Prod.fst
  · simpa [hm] using h
  · rw [if_neg hm, List.nodup_append]
    refine ⟨h, by simp, ?_⟩
    intro a ha hb
    rw [List.mem_singleton] at hb
    exact hm (hb ▸ ha)

theorem grouping_keys_nodup (buf : List Nat) :
    ((rollsum_chunks_crc32 buf).map Prod.fst).Nodup := by
  rw [rollsum_chunks_crc32]
  generalize chunkSeq buf = cs
  have : ∀ (cs : List Chunk) (m : List (ChunkId × List Chunk)), (m.map Prod.fst).Nodup →
      (((cs.foldl (fun m c => groupInsert m (chunkid c.buf) c) m)).map Prod.fst).Nodup := by
    intro cs
    induction cs with
    | nil => intro m h; exact h
    | cons c rest ih =>
      intro m h
      rw [List.foldl_cons]
      exact ih _ (groupInsert_keys_nodup m (chunkid c.buf) c h)
  exact this cs [] (by simp)

theorem groupInsert_chunkid (m : List (ChunkId × List Chunk)) (c : Chunk)
    (h : ∀ p ∈ m, ∀ d ∈ p.2, chunkid d.buf = p.1) :
    ∀ p ∈ groupInsert m (chunkid c.buf) c, ∀ d ∈ p.2, chunkid d.buf = p.1 := by
  induction m with
  | nil =>
    intro p hp d hd
    rw [groupInsert] at hp
    rcases List.mem_singleton.mp hp with rfl
    rcases List.mem_singleton.mp hd with rfl
    rfl
  | cons q rest ih =>
    intro p hp d hd
    rw [groupInsert] at hp
    split at hp
    · rename_i he
      rcases List.mem_cons.mp hp with rfl | hp2
      · rcases List.mem_append.mp hd with hd2 | hd2
        · exact h q (List.mem_cons_self _ _) d hd2
        · rw [List.mem_singleton.mp hd2, he]
      · exact h p (List.mem_cons_of_mem _ hp2) d hd
    · rcases List.mem_cons.mp hp with rfl | hp2
      · exact h q (List.mem_cons_self _ _) d hd
      · exact ih (fun r hr => h r (List.mem_cons_of_mem _ hr)) p hp2 d hd

theorem grouping_chunkid (buf : List Nat) :
    ∀ p ∈ rollsum_chunks_crc32 buf, ∀ d ∈ p.2, chunkid d.buf = p.1 := by
  rw [rollsum_chunks_crc32]
  generalize chunkSeq buf = cs
  have main : ∀ (cs : List Chunk) (m : List (ChunkId × List Chunk)),
      (∀ p ∈ m, ∀ d ∈ p.2, chunkid d.buf = p.1) →
      ∀ p ∈ cs.foldl (fun m c => groupInsert m (chunkid c.buf) c) m, ∀ d ∈ p.2,
        chunkid d.buf = p.1 := by
    intro cs
    induction cs with
    | nil => intro m h; exact h
    | cons c rest ih =>
      intro m h
      rw [List.foldl_cons]
      exact ih _ (groupInsert_chunkid m c h)
  exact main cs [] (by simp)

theorem lookupGroup_mem (m : List (ChunkId × List Chunk)) (k : ChunkId)
    (cs : List Chunk) (h : lookupGroup m k = some cs) : (k, cs) ∈ m := by
  induction m with
  | nil => simp [lookupGroup] at h
  | cons p rest ih =>
    rw [lookupGroup] at h
    split at h
    · rename_i he
      injection h with h
      rw [← he, ← h]
      exact List.mem_cons_self _ _
    · exact List.mem_cons_of_mem _ (ih h)

theorem lookupGroup_of_mem : ∀ (m : List (ChunkId × List Chunk)) (k : ChunkId)
    (cs : List Chunk), (m.map Prod.fst).Nodup → (k, cs) ∈ m → lookupGroup m k = some cs := by
  intro m
  induction m with
  | nil => intro k cs _ h; simp at h
  | cons p rest ih =>
    intro k cs hnd hmem
    rw [List.map_cons, List.nodup_cons] at hnd
    obtain ⟨hp1, hnd2⟩ := hnd
    rcases List.mem_cons.mp hmem with rfl | hmem2
    · rw [lookupGroup, if_pos rfl]
    · rw [lookupGroup]
      have hne : ¬ p.1 = k := by
        intro he
        exact hp1 (he ▸ List.mem_map_of_mem Prod.fst hmem2)
      rw [if_neg hne]
      exact ih k cs hnd2 hmem2

theorem grouping_complete (buf : List Nat) (c : Chunk) (hc : c ∈ chunkSeq buf) :
    ∃ cs, lookupGroup (rollsum_chunks_crc32 buf) (chunkid c.buf) = some cs ∧ c ∈ cs := by
  have hperm := grouping_flatMap_perm buf
  have hcm : c ∈ (rollsum_chunks_crc32 buf).flatMap Prod.snd := hperm.mem_iff.mpr hc
  obtain ⟨p, hp, hcp⟩ := List.mem_flatMap.mp hcm
  have hid : chunkid c.buf = p.1 := grouping_chunkid buf p hp c hcp
  refine ⟨p.2, ?_, hcp⟩
  rw [hid]
  exact lookupGroup_of_mem _ _ _ (grouping_keys_nodup buf) (by simpa using hp)

theorem orderedGroups_canonical : ∀ (m : List (ChunkId × List Chunk)),
    (m.map Prod.fst).Nodup → orderedGroups m (m.map Prod.fst) = m := by
  intro m
  induction m with
  | nil => intro _; rfl
  | cons p rest ih =>
    intro hnd
    rw [List.map_cons, List.nodup_cons] at hnd
    obtain ⟨hp1, hnd2⟩ := hnd
    rw [orderedGroups, List.map_cons, List.filterMap_cons]
    have hsome : (lookupGroup (p :: rest) p.1).map (fun cs => (p.1, cs)) = some (p.1, p.2) := by
      rw [lookupGroup, if_pos rfl]
      rfl
    rw [hsome]
    have hcong : ∀ k ∈ rest.map Prod.fst,
        (fun k => (lookupGroup (p :: rest) k).map (fun cs => (k, cs))) k =
        (fun k => (lookupGroup rest k).map (fun cs => (k, cs))) k := by
      intro k hk
      have hne : ¬ p.1 = k := fun he => hp1 (he ▸ hk)
      simp only
      rw [lookupGroup, if_neg hne]
    rw [List.filterMap_congr hcong]
    rw [← orderedGroups, ih hnd2]

theorem orderedGroups_perm (m : List (ChunkId × List Chunk)) (ord : List ChunkId)
    (hnd : (m.map Prod.fst).Nodup) (hperm : ord.Perm (m.map Prod.fst)) :
    (orderedGroups m ord).Perm m := by
  have h1 : (orderedGroups m ord).Perm (orderedGroups m (m.map Prod.fst)) :=
    List.Perm.filterMap _ hperm
  rw [orderedGroups_canonical m hnd] at h1
  exact h1

theorem chunkSeq_starts_nodup (buf : List Nat) : ((chunkSeq buf).map Chunk.start).Nodup := by
  obtain ⟨h1, h2, h3⟩ := chunkSeqGo_spec buf.length buf false 0 (Nat.le_refl _)
  have hch := tilesFrom_chain _ 0 h1 (fun c hc => (h3 c hc).1)
  rw [List.chain'_iff_pairwise] at hch
  exact hch.imp Nat.ne_of_lt

theorem chunkSeq_len_sum (buf : List Nat) :
    ((chunkSeq buf).map (fun c => c.buf.length)).sum = buf.length := by
  obtain ⟨h1, h2, h3⟩ := chunkSeqGo_spec buf.length buf false 0 (Nat.le_refl _)
  have := congrArg List.length h2
  rw [List.length_flatten, List.map_map] at this
  exact this

theorem chunkSeq_chunk_nonempty (buf : List Nat) :
    ∀ c ∈ chunkSeq buf, 1 ≤ c.buf.length :=
  fun c hc => ((chunkSeqGo_spec buf.length buf false 0 (Nat.le_refl _)).2.2 c hc).1

/-- The `orderedGroups` seen by `rollsum_delta_ord` under a valid order:
a permutation of the canonical group list, whose chunks are a permutation
of the chunk sequence. -/
theorem orderedGroups_of_valid (dest : List Nat) (ord : List ChunkId)
    (hord : ValidOrd dest ord) :
    (orderedGroups (rollsum_chunks_crc32 dest) ord).Perm (rollsum_chunks_crc32 dest) ∧
    ((orderedGroups (rollsum_chunks_crc32 dest) ord).flatMap Prod.snd).Perm (chunkSeq dest) := by
  have h1 := orderedGroups_perm (rollsum_chunks_crc32 dest) ord (grouping_keys_nodup dest) hord
  exact ⟨h1, (h1.flatMap_right Prod.snd).trans (grouping_flatMap_perm dest)⟩

/-- The fields of `rollsum_delta_ord` in terms of the parametrized group
list, for any valid iteration order. -/
theorem delta_ord_spec (src dest : List Nat) (ord : List ChunkId) (hord : ValidOrd dest ord) :
    (rollsum_delta_ord src dest ord).panicked = false ∧
    (rollsum_delta_ord src dest ord).matched =
      (matchedPairs (rollsum_chunks_crc32 src)
        ((orderedGroups (rollsum_chunks_crc32 dest) ord).flatMap Prod.snd)).foldl
        (fun m p => insertSorted m p.1 p.2) [] ∧
    ((rollsum_delta_ord src dest ord).matched.map Prod.fst).Perm
      ((matchedPairs (rollsum_chunks_crc32 src) (chunkSeq dest)).map Prod.fst) ∧
    (rollsum_delta_ord src dest ord).stats.matched_size =
      ((matchedPairs (rollsum_chunks_crc32 src) (chunkSeq dest)).map
        (fun p => p.2.buf.length)).sum ∧
    (rollsum_delta_ord src dest ord).stats.crc_miss =
      ((chunkSeq dest).map (chunkMiss (rollsum_chunks_crc32 src))).sum ∧
    (rollsum_delta_ord src dest ord).stats.chunkid_collision =
      ((chunkSeq dest).map (chunkColl (rollsum_chunks_crc32 src))).sum ∧
    (rollsum_delta_ord src dest ord).assertFailed =
      (chunkSeq dest).any (chunkSawEmpty (rollsum_chunks_crc32 src)) := by
  obtain ⟨hgp, hfp⟩ := orderedGroups_of_valid dest ord hord
  have hnd : (((orderedGroups (rollsum_chunks_crc32 dest) ord).flatMap Prod.snd).map
      Chunk.start).Nodup := by
    refine (List.Perm.nodup_iff (hfp.map Chunk.start)).mpr ?_
    exact chunkSeq_starts_nodup dest
  have hdisj : ∀ dc ∈ (orderedGroups (rollsum_chunks_crc32 dest) ord).flatMap Prod.snd,
      dc.start ∉ (([] : List (Nat × Chunk)).map Prod.fst) := by
    intro dc _ h
    simp at h
  obtain ⟨g1, g2, g3, g4, g5, g6, g7, g8⟩ :=
    processGroups_spec (rollsum_chunks_crc32 src)
      (orderedGroups (rollsum_chunks_crc32 dest) ord) ⟨[], 0, 0, 0, false, false⟩ hnd hdisj
  have hmp : (matchedPairs (rollsum_chunks_crc32 src)
      ((orderedGroups (rollsum_chunks_crc32 dest) ord).flatMap Prod.snd)).Perm
      (matchedPairs (rollsum_chunks_crc32 src) (chunkSeq dest)) :=
    List.Perm.filterMap _ hfp
  refine ⟨?_, ?_, ?_, ?_, ?_, ?_, ?_⟩ <;>
    simp only [rollsum_delta_ord]
  · rw [g6]
  · rw [g2]
  · refine g8.trans ?_
    simp only [List.map_nil, List.append_nil]
    exact hmp.map Prod.fst
  · rw [g3, Nat.zero_add]
    exact (hmp.map (fun p => p.2.buf.length)).sum_eq
  · rw [g4, Nat.zero_add]
    exact (hfp.map (chunkMiss (rollsum_chunks_crc32 src))).sum_eq
  · rw [g5, Nat.zero_add]
    exact (hfp.map (chunkColl (rollsum_chunks_crc32 src))).sum_eq
  · rw [g7, Bool.false_or]
    rcases hany : (chunkSeq dest).any (chunkSawEmpty (rollsum_chunks_crc32 src)) with _ | _
    · rw [List.any_eq_false] at hany ⊢
      intro dc hdc
      exact hany dc (hfp.mem_iff.mp hdc)
    · rw [List.any_eq_true] at hany ⊢
      obtain ⟨dc, hdc, hp⟩ := hany
      exact ⟨dc, hfp.mem_iff.mpr hdc, hp⟩

theorem findIdx_some : ∀ (u : List (List Nat)) (b : List Nat) (i : Nat),
    findIdx u b = some i → i < u.length ∧ u[i]? = some b := by
  intro u
  induction u with
  | nil => intro b i h; simp [findIdx] at h
  | cons x rest ih =>
    intro b i h
    rw [findIdx] at h
    split at h
    · rename_i he
      injection h with h
      subst h
      refine ⟨by simp only [List.length_cons]; omega, ?_⟩
      rw [List.getElem?_cons_zero, he]
    · cases hf : findIdx rest b with
      | none => rw [hf] at h; simp at h
      | some j =>
        rw [hf] at h
        have h2 : j + 1 = i := by simpa using h
        obtain ⟨hj1, hj2⟩ := ih b j hf
        subst h2
        constructor
        · simp only [List.length_cons]
          omega
        · simpa using hj2

theorem findIdx_none : ∀ (u : List (List Nat)) (b : List Nat),
    findIdx u b = none ↔ b ∉ u := by
  intro u
  induction u with
  | nil => intro b; simp [findIdx]
  | cons x rest ih =>
    intro b
    rw [findIdx]
    by_cases he : b = x
    · simp [he]
    · simp only [if_neg he, List.mem_cons]
      constructor
      · intro h hc
        rcases hc with hc | hc
        · exact he hc
        · have h2 : findIdx rest b = none := by
            cases hfr : findIdx rest b with
            | none => rfl
            | some j => rw [hfr] at h; simp at h
          exact ((ih b).mp h2) hc
      · intro h
        have h2 : findIdx rest b = none := (ih b).mpr (fun hc => h (Or.inr hc))
        rw [h2]
        rfl

theorem dedupGo_fst : ∀ (cs : List Chunk) (u : List (List Nat)),
    (dedupGo cs u).1.map Prod.fst = cs.map Chunk.start := by
  intro cs
  induction cs with
  | nil => intro u; rfl
  | cons c rest ih =>
    intro u
    rw [dedupGo]
    cases hf : findIdx u c.buf <;> simp [ih]

theorem dedupGo_length : ∀ (cs : List Chunk) (u : List (List Nat)),
    (dedupGo cs u).1.length = cs.length := by
  intro cs
  induction cs with
  | nil => intro u; rfl
  | cons c rest ih =>
    intro u
    rw [dedupGo]
    cases hf : findIdx u c.buf <;> simp [ih]

theorem dedupGo_extends : ∀ (cs : List Chunk) (u : List (List Nat)),
    ∃ ext, (dedupGo cs u).2 = u ++ ext := by
  intro cs
  induction cs with
  | nil => intro u; exact ⟨[], by simp [dedupGo]⟩
  | cons c rest ih =>
    intro u
    rw [dedupGo]
    cases hf : findIdx u c.buf with
    | some i => exact ih u
    | none =>
      obtain ⟨ext, hext⟩ := ih (u ++ [c.buf])
      exact ⟨[c.buf] ++ ext, by simp only [hext, List.append_assoc]⟩

theorem dedupGo_mem : ∀ (cs : List Chunk) (u : List (List Nat)),
    ∀ b ∈ (dedupGo cs u).2, b ∈ u ∨ ∃ c ∈ cs, b = c.buf := by
  intro cs
  induction cs with
  | nil =>
    intro u b hb
    exact Or.inl hb
  | cons c rest ih =>
    intro u b hb
    rw [dedupGo] at hb
    cases hf : findIdx u c.buf with
    | some i =>
      rw [hf] at hb
      rcases ih u b hb with h | ⟨c2, hc2, he⟩
      · exact Or.inl h
      · exact Or.inr ⟨c2, List.mem_cons_of_mem _ hc2, he⟩
    | none =>
      rw [hf] at hb
      rcases ih (u ++ [c.buf]) b hb with h | ⟨c2, hc2, he⟩
      · rcases List.mem_append.mp h with h2 | h2
        · exact Or.inl h2
        · exact Or.inr ⟨c, List.mem_cons_self _ _, List.mem_singleton.mp h2⟩
      · exact Or.inr ⟨c2, List.mem_cons_of_mem _ hc2, he⟩

theorem dedupGo_nodup : ∀ (cs : List Chunk) (u : List (List Nat)),
    u.Nodup → (dedupGo cs u).2.Nodup := by
  intro cs
  induction cs with
  | nil => intro u h; exact h
  | cons c rest ih =>
    intro u h
    rw [dedupGo]
    cases hf : findIdx u c.buf with
    | some i => exact ih u h
    | none =>
      refine ih (u ++ [c.buf]) ?_
      rw [List.nodup_append]
      refine ⟨h, by simp, ?_⟩
      intro a ha hb
      rw [List.mem_singleton] at hb
      subst hb
      exact (findIdx_none u c.buf).mp hf ha

theorem dedupGo_link : ∀ (cs : List Chunk) (u : List (List Nat)),
    ∀ p ∈ (dedupGo cs u).1, ∃ c ∈ cs, c.start = p.1 ∧
      (dedupGo cs u).2[p.2]? = some c.buf := by
  intro cs
  induction cs with
  | nil => intro u p hp; simp [dedupGo] at hp
  | cons c rest ih =>
    intro u p hp
    rw [dedupGo] at hp ⊢
    split at hp
    · rename_i i hf
      dsimp only at hp ⊢
      obtain ⟨hi1, hi2⟩ := findIdx_some u c.buf i hf
      rcases List.mem_cons.mp hp with rfl | hp2
      · refine ⟨c, List.mem_cons_self _ _, rfl, ?_⟩
        obtain ⟨ext, hext⟩ := dedupGo_extends rest u
        simp only [hext]
        rw [List.getElem?_append_left hi1]
        exact hi2
      · obtain ⟨c2, hc2, he1, he2⟩ := ih u p hp2
        exact ⟨c2, List.mem_cons_of_mem _ hc2, he1, he2⟩
    · rename_i hf
      dsimp only at hp ⊢
      rcases List.mem_cons.mp hp with rfl | hp2
      · refine ⟨c, List.mem_cons_self _ _, rfl, ?_⟩
        obtain ⟨ext, hext⟩ := dedupGo_extends rest (u ++ [c.buf])
        simp only [hext]
        rw [List.getElem?_append_left (by simp)]
        rw [List.getElem?_append_right (Nat.le_refl _)]
        simp
      · obtain ⟨c2, hc2, he1, he2⟩ := ih (u ++ [c.buf]) p hp2
        exact ⟨c2, List.mem_cons_of_mem _ hc2, he1, he2⟩

theorem insertSorted_perm {α : Type} : ∀ (m : List (Nat × α)) (k : Nat) (v : α),
    (insertSorted m k v).Perm ((k, v) :: m) := by
  intro m k v
  induction m with
  | nil => simp [insertSorted]
  | cons p rest ih =>
    rw [insertSorted]
    split
    · exact List.Perm.refl _
    · exact (List.Perm.cons p ih).trans (List.Perm.swap _ _ _)

theorem foldl_insertSorted_perm {α : Type} (g : Nat × Nat → Nat × α) :
    ∀ (ps : List (Nat × Nat)) (m : List (Nat × α)),
    (ps.foldl (fun m p => insertSorted m (g p).1 (g p).2) m).Perm (ps.map g ++ m) := by
  intro ps
  induction ps with
  | nil => intro m; simp
  | cons p rest ih =>
    intro m
    rw [List.foldl_cons]
    refine (ih _).trans ?_
    refine (List.Perm.append_left _ (insertSorted_perm m (g p).1 (g p).2)).trans ?_
    simp only [List.map_cons]
    exact List.perm_middle.trans (List.Perm.refl _) |>.symm.symm |>.trans (List.Perm.refl _)

theorem sumLens_foldl (cs : List Chunk) :
    cs.foldl (fun acc c => acc + c.buf.length) 0 = (cs.map (fun c => c.buf.length)).sum := by
  have main : ∀ (cs : List Chunk) (n : Nat),
      cs.foldl (fun acc c => acc + c.buf.length) n = n + (cs.map (fun c => c.buf.length)).sum := by
    intro cs
    induction cs with
    | nil => intro n; simp
    | cons c rest ih =>
      intro n
      rw [List.foldl_cons, ih]
      simp only [List.map_cons, List.sum_cons]
      omega
  rw [main cs 0, Nat.zero_add]

theorem loop2_fold : ∀ (L : List (List Chunk)) (ust : UnmatchedState),
    (L.foldl processUnmatchedGroup ust).unmatched_size =
      ust.unmatched_size + (L.map (fun cs => (cs.map (fun c => c.buf.length)).sum)).sum ∧
    (L.foldl processUnmatchedGroup ust).dest_duplicates = ust.dest_duplicates ∧
    (L.foldl processUnmatchedGroup ust).unmatched_chunks =
      ust.unmatched_chunks ++ L.flatMap (fun cs => (dedup_chunks cs).2) ∧
    ((L.foldl processUnmatchedGroup ust).unmatched.map Prod.fst).Perm
      (L.flatMap (fun cs => cs.map Chunk.start) ++ ust.unmatched.map Prod.fst) := by
  intro L
  induction L with
  | nil =>
    intro ust
    simp
  | cons cs rest ih =>
    intro ust
    rw [List.foldl_cons]
    obtain ⟨i1, i2, i3, i4⟩ := ih (processUnmatchedGroup ust cs)
    have hu1 : (processUnmatchedGroup ust cs).unmatched_size =
        ust.unmatched_size + (cs.map (fun c => c.buf.length)).sum := by
      rw [processUnmatchedGroup]
      dsimp only
      rw [sumLens_foldl]
    have hu2 : (processUnmatchedGroup ust cs).dest_duplicates = ust.dest_duplicates := by
      rw [processUnmatchedGroup]
      dsimp only
      rw [dedup_chunks, dedupGo_length]
      omega
    have hu3 : (processUnmatchedGroup ust cs).unmatched_chunks =
        ust.unmatched_chunks ++ (dedup_chunks cs).2 := rfl
    have hu4 : ((processUnmatchedGroup ust cs).unmatched.map Prod.fst).Perm
        (cs.map Chunk.start ++ ust.unmatched.map Prod.fst) := by
      rw [processUnmatchedGroup]
      dsimp only
      have hperm := foldl_insertSorted_perm
        (fun p => (p.1, p.2 + ust.unmatched_chunks.length)) (dedup_chunks cs).1 ust.unmatched
      refine (hperm.map Prod.fst).trans ?_
      rw [List.map_append, List.map_map]
      have : ((dedup_chunks cs).1.map
          ((Prod.fst : Nat × Nat → Nat) ∘ fun p => (p.1, p.2 + ust.unmatched_chunks.length))) =
          (dedup_chunks cs).1.map Prod.fst := by
        exact List.map_congr_left (fun p _ => rfl)
      rw [this, dedup_chunks, dedupGo_fst]
    refine ⟨?_, ?_, ?_, ?_⟩
    · rw [i1, hu1]
      simp only [List.map_cons, List.sum_cons]
      omega
    · rw [i2, hu2]
    · rw [i3, hu3, List.flatMap_cons, List.append_assoc]
    · refine i4.trans ?_
      rw [List.flatMap_cons, List.append_assoc]
      refine (List.Perm.append_left _ hu4).trans ?_
      exact List.perm_append_comm_assoc _ _ _

theorem foldl_insertSorted_mem {α : Type} (g : Nat × Nat → Nat × α)
    (ps : List (Nat × Nat)) (m : List (Nat × α)) :
    ∀ q ∈ ps.foldl (fun m p => insertSorted m (g p).1 (g p).2) m,
      q ∈ ps.map g ∨ q ∈ m := by
  intro q hq
  have h := (foldl_insertSorted_perm g ps m).mem_iff.mp hq
  exact List.mem_append.mp h

theorem loop2_link (pool : List Chunk) : ∀ (L : List (List Chunk)) (ust : UnmatchedState),
    (∀ cs ∈ L, ∀ c ∈ cs, c ∈ pool) →
    (∀ p ∈ ust.unmatched, ∃ c ∈ pool, c.start = p.1 ∧
      ust.unmatched_chunks[p.2]? = some c.buf) →
    ∀ p ∈ (L.foldl processUnmatchedGroup ust).unmatched,
      ∃ c ∈ pool, c.start = p.1 ∧
        (L.foldl processUnmatchedGroup ust).unmatched_chunks[p.2]? = some c.buf := by
  intro L
  induction L with
  | nil =>
    intro ust _ h0
    exact h0
  | cons cs rest ih =>
    intro ust hpool h0
    rw [List.foldl_cons]
    refine ih (processUnmatchedGroup ust cs)
      (fun cs2 h2 => hpool cs2 (List.mem_cons_of_mem _ h2)) ?_
    intro p hp
    have hchunks : (processUnmatchedGroup ust cs).unmatched_chunks =
        ust.unmatched_chunks ++ (dedup_chunks cs).2 := rfl
    have hmem := foldl_insertSorted_mem
      (fun q => (q.1, q.2 + ust.unmatched_chunks.length)) (dedup_chunks cs).1 ust.unmatched p
      (by exact hp)
    rcases hmem with hnew | hold
    · obtain ⟨q, hq, hqe⟩ := List.mem_map.mp hnew
      obtain ⟨c, hc, hce1, hce2⟩ := dedupGo_link cs [] q (by rw [← dedup_chunks]; exact hq)
      refine ⟨c, hpool cs (List.mem_cons_self _ _) c hc, ?_, ?_⟩
      · rw [← hqe]
        exact hce1
      · rw [hchunks, ← hqe]
        dsimp only
        rw [List.getElem?_append_right (by omega)]
        rw [Nat.add_sub_cancel]
        rw [← dedup_chunks] at hce2
        exact hce2
    · obtain ⟨c, hc, hce1, hce2⟩ := h0 p hold
      refine ⟨c, hc, hce1, ?_⟩
      rw [hchunks]
      have hlt : p.2 < ust.unmatched_chunks.length := by
        by_contra hge
        rw [List.getElem?_eq_none (by omega)] at hce2
        exact Option.noConfusion hce2
      rw [List.getElem?_append_left hlt]
      exact hce2

theorem survivors_eq (src dest : List Nat) (ord : List ChunkId) (hord : ValidOrd dest ord) :
    (processGroups (rollsum_chunks_crc32 src) ⟨[], 0, 0, 0, false, false⟩
      (orderedGroups (rollsum_chunks_crc32 dest) ord)).2 = survivorGroups src dest ord := by
  obtain ⟨hgp, hfp⟩ := orderedGroups_of_valid dest ord hord
  have hnd : (((orderedGroups (rollsum_chunks_crc32 dest) ord).flatMap Prod.snd).map
      Chunk.start).Nodup :=
    (List.Perm.nodup_iff (hfp.map Chunk.start)).mpr (chunkSeq_starts_nodup dest)
  have hdisj : ∀ dc ∈ (orderedGroups (rollsum_chunks_crc32 dest) ord).flatMap Prod.snd,
      dc.start ∉ (([] : List (Nat × Chunk)).map Prod.fst) := by
    intro dc _ h
    simp at h
  exact (processGroups_spec (rollsum_chunks_crc32 src)
    (orderedGroups (rollsum_chunks_crc32 dest) ord) ⟨[], 0, 0, 0, false, false⟩ hnd hdisj).1

theorem survivor_chunks_mem (src dest : List Nat) (ord : List ChunkId)
    (hord : ValidOrd dest ord) :
    ∀ cs ∈ (survivorGroups src dest ord).map Prod.snd, ∀ c ∈ cs, c ∈ chunkSeq dest := by
  obtain ⟨hgp, hfp⟩ := orderedGroups_of_valid dest ord hord
  intro cs hcs c hc
  obtain ⟨g, hg, hge⟩ := List.mem_map.mp hcs
  rw [survivorGroups] at hg
  have hg2 := List.mem_of_mem_filter hg
  obtain ⟨g0, hg0, hg0e⟩ := List.mem_map.mp hg2
  rw [← hge, ← hg0e] at hc
  dsimp only at hc
  have hc2 : c ∈ g0.2 := List.mem_of_mem_filter hc
  have hc3 : c ∈ (orderedGroups (rollsum_chunks_crc32 dest) ord).flatMap Prod.snd :=
    List.mem_flatMap.mpr ⟨g0, hg0, hc2⟩
  exact hfp.mem_iff.mp hc3

theorem delta_ord_unmatched_spec (src dest : List Nat) (ord : List ChunkId)
    (hord : ValidOrd dest ord) :
    (rollsum_delta_ord src dest ord).unmatched_chunks =
      ((survivorGroups src dest ord).map Prod.snd).flatMap (fun cs => (dedup_chunks cs).2) ∧
    (rollsum_delta_ord src dest ord).stats.unmatched_size =
      (((survivorGroups src dest ord).map Prod.snd).map
        (fun cs => (cs.map (fun c => c.buf.length)).sum)).sum ∧
    (rollsum_delta_ord src dest ord).stats.dest_duplicates = 0 ∧
    ((rollsum_delta_ord src dest ord).unmatched.map Prod.fst).Perm
      (((survivorGroups src dest ord).map Prod.snd).flatMap (fun cs => cs.map Chunk.start)) ∧
    ∀ p ∈ (rollsum_delta_ord src dest ord).unmatched, ∃ c ∈ chunkSeq dest, c.start = p.1 ∧
      (rollsum_delta_ord src dest ord).unmatched_chunks[p.2]? = some c.buf := by
  have hsv := survivors_eq src dest ord hord
  obtain ⟨f1, f2, f3, f4⟩ := loop2_fold ((survivorGroups src dest ord).map Prod.snd)
    ⟨[], [], 0, 0⟩
  have hlink := loop2_link (chunkSeq dest) ((survivorGroups src dest ord).map Prod.snd)
    ⟨[], [], 0, 0⟩ (survivor_chunks_mem src dest ord hord) (by intro p hp; simp at hp)
  refine ⟨?_, ?_, ?_, ?_, ?_⟩ <;>
    simp only [rollsum_delta_ord, hsv]
  · rw [f3]
    rfl
  · rw [f1]
    simp
  · rw [f2]
  · refine f4.trans ?_
    simp
  · exact hlink

theorem sawEmpty_eq_false (b : List Nat) : ∀ (cands : List Chunk),
    (∀ sc ∈ cands, sc.buf.length ≠ 0) → sawEmpty b cands = false := by
  intro cands
  induction cands with
  | nil => intro _; rfl
  | cons sc rest ih =>
    intro h
    rw [sawEmpty, if_neg (h sc (List.mem_cons_self _ _))]
    by_cases hm : sc.buf = b
    · rw [if_pos hm]
    · rw [if_neg hm]
      exact ih (fun sc2 h2 => h sc2 (List.mem_cons_of_mem _ h2))

theorem chunkSawEmpty_eq_false (src : List Nat) (dc : Chunk) :
    chunkSawEmpty (rollsum_chunks_crc32 src) dc = false := by
  rw [chunkSawEmpty]
  cases hlk : lookupGroup (rollsum_chunks_crc32 src) (chunkid dc.buf) with
  | none => rfl
  | some cands =>
    refine sawEmpty_eq_false dc.buf cands ?_
    intro sc hsc
    have hmem := lookupGroup_mem _ _ _ hlk
    have hsc2 : sc ∈ (rollsum_chunks_crc32 src).flatMap Prod.snd :=
      List.mem_flatMap.mpr ⟨_, hmem, hsc⟩
    have hsc3 : sc ∈ chunkSeq src := (grouping_flatMap_perm src).mem_iff.mp hsc2
    have := chunkSeq_chunk_nonempty src sc hsc3
    omega

/-- C10: the fatal branches of the delta matcher are unreachable, for any
valid `HashMap` iteration order (in particular the canonical one):
the duplicate-destination-offset `panic!` never fires because the chunker
emits pairwise-distinct start offsets, and the `assert!(len > 0)` never
fires because the chunker never emits an empty chunk. -/
theorem C10_fatal_branches_unreachable (src dest : List Nat) (ord : List ChunkId)
    (hord : ValidOrd dest ord) :
    (rollsum_delta_ord src dest ord).panicked = false ∧
    (rollsum_delta_ord src dest ord).assertFailed = false ∧
    (rollsum_delta src dest).panicked = false ∧
    (rollsum_delta src dest).assertFailed = false := by
  have hcanon : ValidOrd dest (destOrd dest) := List.Perm.refl _
  have h1 := delta_ord_spec src dest ord hord
  have h2 := delta_ord_spec src dest (destOrd dest) hcanon
  have hany : (chunkSeq dest).any (chunkSawEmpty (rollsum_chunks_crc32 src)) = false := by
    rw [List.any_eq_false]
    intro dc _
    simp [chunkSawEmpty_eq_false src dc]
  refine ⟨h1.1, ?_, h2.1, ?_⟩
  · rw [h1.2.2.2.2.2.2, hany]
  · rw [rollsum_delta, h2.2.2.2.2.2.2, hany]

/-- Witness for C10 at concrete inputs. -/
theorem C10_fatal_branches_unreachable_witness :
    (rollsum_delta_ord [] [42] (destOrd [42])).panicked = false ∧
    (rollsum_delta_ord [] [42] (destOrd [42])).assertFailed = false ∧
    (rollsum_delta [] [42]).panicked = false ∧
    (rollsum_delta [] [42]).assertFailed = false :=
  C10_fatal_branches_unreachable [] [42] (destOrd [42]) (List.Perm.refl _)

theorem firstMatch_buf (b : List Nat) : ∀ (cands : List Chunk) (sc : Chunk),
    firstMatch b cands = some sc → sc.buf = b := by
  intro cands
  induction cands with
  | nil => intro sc h; simp [firstMatch] at h
  | cons c rest ih =>
    intro sc h
    rw [firstMatch] at h
    split at h
    · rename_i he
      injection h with h
      rw [← h]
      exact he
    · exact ih sc h

theorem matchedPairs_len_sum (srcSet : List (ChunkId × List Chunk)) : ∀ (cs : List Chunk),
    ((matchedPairs srcSet cs).map (fun p => p.2.buf.length)).sum =
      (cs.map (fun dc =>
        match chunkMatch srcSet dc with
        | some sc => sc.buf.length
        | none => 0)).sum := by
  intro cs
  induction cs with
  | nil => rfl
  | cons dc rest ih =>
    rw [matchedPairs, List.filterMap_cons]
    cases hcm : chunkMatch srcSet dc with
    | none =>
      simp only [Option.map_none']
      rw [← matchedPairs, ih, List.map_cons, List.sum_cons, hcm]
      simp
    | some sc =>
      simp only [Option.map_some', List.map_cons, List.sum_cons]
      rw [← matchedPairs, ih, hcm]

theorem filter_len_sum (p : Chunk → Bool) : ∀ (cs : List Chunk),
    ((cs.filter p).map (fun c => c.buf.length)).sum =
      (cs.map (fun dc => if p dc then dc.buf.length else 0)).sum := by
  intro cs
  induction cs with
  | nil => rfl
  | cons c rest ih =>
    rw [List.filter_cons]
    by_cases hp : p c
    · rw [if_pos hp, List.map_cons, List.sum_cons, ih, List.map_cons, List.sum_cons, if_pos hp]
    · rw [if_neg hp, ih, List.map_cons, List.sum_cons, if_neg hp, Nat.zero_add]

theorem survivors_size_sum (src dest : List Nat) (ord : List ChunkId) :
    (((survivorGroups src dest ord).map Prod.snd).map
      (fun cs => (cs.map (fun c => c.buf.length)).sum)).sum =
      (((orderedGroups (rollsum_chunks_crc32 dest) ord).flatMap Prod.snd).map
        (fun dc => if (chunkMatch (rollsum_chunks_crc32 src) dc).isNone
          then dc.buf.length else 0)).sum := by
  rw [survivorGroups]
  generalize orderedGroups (rollsum_chunks_crc32 dest) ord = G
  induction G with
  | nil => rfl
  | cons g rest ih =>
    rw [List.map_cons, List.filter_cons, List.flatMap_cons, List.map_append, List.sum_append]
    by_cases he : ((g.2.filter (fun dc => (chunkMatch (rollsum_chunks_crc32 src) dc).isNone))).isEmpty
    · rw [if_neg (by simp [he])]
      rw [ih]
      have h0 : (g.2.map (fun dc => if (chunkMatch (rollsum_chunks_crc32 src) dc).isNone
          then dc.buf.length else 0)).sum = 0 := by
        rw [← filter_len_sum]
        rw [List.isEmpty_iff] at he
        rw [he]
        rfl
      omega
    · rw [if_pos (by simp [he])]
      rw [List.map_cons, List.map_cons, List.sum_cons]
      dsimp only
      rw [ih, filter_len_sum]

theorem sum_map_add_split (f g : Chunk → Nat) : ∀ (cs : List Chunk),
    (cs.map f).sum + (cs.map g).sum = (cs.map (fun c => f c + g c)).sum := by
  intro cs
  induction cs with
  | nil => rfl
  | cons c rest ih =>
    simp only [List.map_cons, List.sum_cons]
    omega

theorem chunkMatch_buf (srcSet : List (ChunkId × List Chunk)) (dc : Chunk) (sc : Chunk)
    (h : chunkMatch srcSet dc = some sc) : sc.buf = dc.buf := by
  rw [chunkMatch] at h
  cases hlk : lookupGroup srcSet (chunkid dc.buf) with
  | none => rw [hlk] at h; exact Option.noConfusion h
  | some cands =>
    rw [hlk] at h
    exact firstMatch_buf dc.buf cands sc h

/-- C7: every destination byte is counted exactly once: matched plus
unmatched bytes equal the destination length, which is also the recorded
`dest_size`. -/
theorem C7_stats_consistency (src dest : List Nat) :
    (rollsum_delta src dest).stats.matched_size +
      (rollsum_delta src dest).stats.unmatched_size = dest.length ∧
    (rollsum_delta src dest).stats.dest_size = dest.length := by
  have hord : ValidOrd dest (destOrd dest) := List.Perm.refl _
  have hA := delta_ord_spec src dest (destOrd dest) hord
  have hU := delta_ord_unmatched_spec src dest (destOrd dest) hord
  obtain ⟨hgp, hfp⟩ := orderedGroups_of_valid dest (destOrd dest) hord
  constructor
  · rw [rollsum_delta, hA.2.2.2.1, hU.2.1]
    rw [matchedPairs_len_sum, survivors_size_sum]
    have hsum2 : (((orderedGroups (rollsum_chunks_crc32 dest) (destOrd dest)).flatMap
        Prod.snd).map (fun dc => if (chunkMatch (rollsum_chunks_crc32 src) dc).isNone
          then dc.buf.length else 0)).sum =
        ((chunkSeq dest).map (fun dc => if (chunkMatch (rollsum_chunks_crc32 src) dc).isNone
          then dc.buf.length else 0)).sum :=
      (hfp.map _).sum_eq
    rw [hsum2, sum_map_add_split]
    have hptw : ((chunkSeq dest).map (fun c =>
        (match chunkMatch (rollsum_chunks_crc32 src) c with
         | some sc => sc.buf.length
         | none => 0) +
        (if (chunkMatch (rollsum_chunks_crc32 src) c).isNone then c.buf.length else 0))) =
        (chunkSeq dest).map (fun c => c.buf.length) := by
      refine List.map_congr_left ?_
      intro dc _
      cases hcm : chunkMatch (rollsum_chunks_crc32 src) dc with
      | none => simp [hcm]
      | some sc =>
        have := chunkMatch_buf _ _ _ hcm
        simp [hcm, this]
    rw [hptw, chunkSeq_len_sum]
  · rfl

theorem firstMatch_isSome (b : List Nat) : ∀ (cands : List Chunk),
    (∃ sc ∈ cands, sc.buf = b) → firstMatch b cands ≠ none := by
  intro cands
  induction cands with
  | nil => rintro ⟨sc, hsc, _⟩; simp at hsc
  | cons c rest ih =>
    rintro ⟨sc, hsc, hbe⟩
    rw [firstMatch]
    by_cases he : c.buf = b
    · rw [if_pos he]
      simp
    · rw [if_neg he]
      rcases List.mem_cons.mp hsc with rfl | hsc2
      · exact absurd hbe he
      · exact ih ⟨sc, hsc2, hbe⟩

theorem self_chunkMatch (x : List Nat) (dc : Chunk) (hdc : dc ∈ chunkSeq x) :
    chunkMatch (rollsum_chunks_crc32 x) dc ≠ none := by
  obtain ⟨cs, hlk, hmem⟩ := grouping_complete x dc hdc
  rw [chunkMatch, hlk]
  exact firstMatch_isSome dc.buf cs ⟨dc, hmem, rfl⟩

theorem matchedPairs_fst_allSome (srcSet : List (ChunkId × List Chunk)) :
    ∀ (cs : List Chunk), (∀ dc ∈ cs, chunkMatch srcSet dc ≠ none) →
    (matchedPairs srcSet cs).map Prod.fst = cs.map Chunk.start := by
  intro cs
  induction cs with
  | nil => intro _; rfl
  | cons dc rest ih =>
    intro h
    rw [matchedPairs, List.filterMap_cons]
    cases hcm : chunkMatch srcSet dc with
    | none => exact absurd hcm (h dc (List.mem_cons_self _ _))
    | some sc =>
      simp only [Option.map_some']
      rw [List.map_cons, ← matchedPairs, ih (fun d hd => h d (List.mem_cons_of_mem _ hd))]
      rfl

/-- The amended C6: on `compute_delta(x, x)` every chunk of `x` matches
itself, so there are no unmatched bytes and the matched map has exactly
one entry per chunk, jointly covering the buffer. -/
theorem C6_identity_delta_amended (x : List Nat) (hne : x ≠ []) :
    (rollsum_delta x x).unmatched = [] ∧
    (rollsum_delta x x).unmatched_chunks = [] ∧
    (rollsum_delta x x).stats.unmatched_size = 0 ∧
    (rollsum_delta x x).stats.matched_size = x.length ∧
    ((rollsum_delta x x).matched.map Prod.fst).Perm ((chunkSeq x).map Chunk.start) ∧
    (rollsum_delta x x).matched.length = (chunkSeq x).length := by
  have hord : ValidOrd x (destOrd x) := List.Perm.refl _
  have hA := delta_ord_spec x x (destOrd x) hord
  have hU := delta_ord_unmatched_spec x x (destOrd x) hord
  obtain ⟨hgp, hfp⟩ := orderedGroups_of_valid x (destOrd x) hord
  have hall : ∀ dc ∈ (orderedGroups (rollsum_chunks_crc32 x) (destOrd x)).flatMap Prod.snd,
      chunkMatch (rollsum_chunks_crc32 x) dc ≠ none := by
    intro dc hdc
    exact self_chunkMatch x dc (hfp.mem_iff.mp hdc)
  have hsv : survivorGroups x x (destOrd x) = [] := by
    rw [survivorGroups]
    rw [List.filter_eq_nil_iff]
    intro g hg
    obtain ⟨g0, hg0, hg0e⟩ := List.mem_map.mp hg
    have hfe : g0.2.filter (fun dc =>
        (chunkMatch (rollsum_chunks_crc32 x) dc).isNone) = [] := by
      rw [List.filter_eq_nil_iff]
      intro dc hdc
      have h2 := hall dc (List.mem_flatMap.mpr ⟨g0, hg0, hdc⟩)
      cases hcm : chunkMatch (rollsum_chunks_crc32 x) dc with
      | none => exact absurd hcm h2
      | some sc => simp
    rw [← hg0e]
    dsimp only
    rw [hfe]
    simp
  have hu1 : (rollsum_delta x x).unmatched_chunks = [] := by
    rw [rollsum_delta, hU.1, hsv]
    rfl
  have hu0 : (rollsum_delta x x).unmatched = [] := by
    have hperm := hU.2.2.2.1
    rw [hsv] at hperm
    simp only [List.map_nil, List.flatMap_nil] at hperm
    have := List.Perm.eq_nil hperm
    rw [rollsum_delta]
    exact List.map_eq_nil_iff.mp this
  refine ⟨hu0, hu1, ?_, ?_, ?_, ?_⟩
  · rw [rollsum_delta, hU.2.1, hsv]
    rfl
  · rw [rollsum_delta, hA.2.2.2.1, matchedPairs_len_sum]
    have hptw : ((chunkSeq x).map (fun dc =>
        match chunkMatch (rollsum_chunks_crc32 x) dc with
        | some sc => sc.buf.length
        | none => 0)) = (chunkSeq x).map (fun c => c.buf.length) := by
      refine List.map_congr_left ?_
      intro dc hdc
      cases hcm : chunkMatch (rollsum_chunks_crc32 x) dc with
      | none => exact absurd hcm (self_chunkMatch x dc hdc)
      | some sc =>
        have := chunkMatch_buf _ _ _ hcm
        simp [this]
    rw [hptw, chunkSeq_len_sum]
  · rw [rollsum_delta]
    refine hA.2.2.1.trans ?_
    rw [matchedPairs_fst_allSome _ _ (fun dc hdc => self_chunkMatch x dc hdc)]
  · have hkeys := hA.2.2.1
    have hlen := hkeys.length_eq
    rw [List.length_map] at hlen
    rw [rollsum_delta, hlen]
    rw [matchedPairs_fst_allSome _ _ (fun dc hdc => self_chunkMatch x dc hdc)]
    rw [List.length_map]

/-- Witness for C6's amended theorem at `x = [42]`. -/
theorem C6_identity_delta_amended_witness :
    (rollsum_delta [42] [42]).unmatched = [] ∧
    (rollsum_delta [42] [42]).unmatched_chunks = [] ∧
    (rollsum_delta [42] [42]).stats.unmatched_size = 0 ∧
    (rollsum_delta [42] [42]).stats.matched_size = [42].length ∧
    ((rollsum_delta [42] [42]).matched.map Prod.fst).Perm ((chunkSeq [42]).map Chunk.start) ∧
    (rollsum_delta [42] [42]).matched.length = (chunkSeq [42]).length :=
  C6_identity_delta_amended [42] (by decide)

theorem survivorGroups_keys_nodup (src dest : List Nat) (ord : List ChunkId)
    (hord : ValidOrd dest ord) :
    ((survivorGroups src dest ord).map Prod.fst).Nodup := by
  obtain ⟨hgp, hfp⟩ := orderedGroups_of_valid dest ord hord
  have hG : ((orderedGroups (rollsum_chunks_crc32 dest) ord).map Prod.fst).Nodup :=
    (hgp.map Prod.fst).nodup_iff.mpr (grouping_keys_nodup dest)
  have hmapped : (((orderedGroups (rollsum_chunks_crc32 dest) ord).map
      (fun g => (g.1, g.2.filter (fun dc =>
        (chunkMatch (rollsum_chunks_crc32 src) dc).isNone)))).map Prod.fst) =
      (orderedGroups (rollsum_chunks_crc32 dest) ord).map Prod.fst := by
    rw [List.map_map]
    exact List.map_congr_left (fun g _ => rfl)
  have hsub : List.Sublist ((survivorGroups src dest ord).map Prod.fst)
      ((((orderedGroups (rollsum_chunks_crc32 dest) ord).map
        (fun g => (g.1, g.2.filter (fun dc =>
          (chunkMatch (rollsum_chunks_crc32 src) dc).isNone)))).map Prod.fst)) := by
    rw [survivorGroups]
    exact List.Sublist.map Prod.fst (List.filter_sublist _)
  rw [hmapped] at hsub
  exact hG.sublist hsub

theorem survivor_uniq_chunkid (src dest : List Nat) (ord : List ChunkId)
    (hord : ValidOrd dest ord) :
    ∀ g ∈ survivorGroups src dest ord, ∀ b ∈ (dedup_chunks g.2).2, chunkid b = g.1 := by
  obtain ⟨hgp, hfp⟩ := orderedGroups_of_valid dest ord hord
  intro g hg b hb
  rw [survivorGroups] at hg
  have hg2 := List.mem_of_mem_filter hg
  obtain ⟨g0, hg0, hg0e⟩ := List.mem_map.mp hg2
  rcases dedupGo_mem g.2 [] b hb with hmem | ⟨c, hc, hce⟩
  · simp at hmem
  · have hc2 : c ∈ g0.2 := by
      rw [← hg0e] at hc
      exact List.mem_of_mem_filter hc
    have hg0d : g0 ∈ rollsum_chunks_crc32 dest := hgp.mem_iff.mp hg0
    have := grouping_chunkid dest g0 hg0d c hc2
    rw [hce, this, ← hg0e]

theorem delta_unmatched_chunks_nodup (src dest : List Nat) :
    (rollsum_delta src dest).unmatched_chunks.Nodup := by
  have hord : ValidOrd dest (destOrd dest) := List.Perm.refl _
  have hU := delta_ord_unmatched_spec src dest (destOrd dest) hord
  rw [rollsum_delta, hU.1, List.flatMap_map]
  rw [List.nodup_flatMap]
  constructor
  · intro g _
    exact dedupGo_nodup g.2 [] (by simp)
  · have hkeys := survivorGroups_keys_nodup src dest (destOrd dest) hord
    have hpw : (survivorGroups src dest (destOrd dest)).Pairwise
        (fun a b => a.1 ≠ b.1) := by
      rw [List.Nodup, List.pairwise_map] at hkeys
      exact hkeys
    refine hpw.imp_of_mem ?_
    intro a b ha hb hne
    intro x hxa hxb
    have h1 := survivor_uniq_chunkid src dest (destOrd dest) hord a ha x hxa
    have h2 := survivor_uniq_chunkid src dest (destOrd dest) hord b hb x hxb
    exact hne (h1 ▸ h2 ▸ rfl)

theorem mem_zipLongestMerge_right (bufs : List (List Nat)) :
    ∀ (ms : List (Nat × Chunk)) (us : List (Nat × Nat)), ∀ u ∈ us,
    copyBufEntry bufs u ∈ zipLongestMerge bufs ms us := by
  intro ms
  induction ms with
  | nil =>
    intro us u hu
    rw [zipLongestMerge]
    exact List.mem_map_of_mem _ hu
  | cons m ms1 ih =>
    intro us u hu
    obtain ⟨ds, sc⟩ := m
    cases us with
    | nil => simp at hu
    | cons u0 us1 =>
      obtain ⟨us0, bi⟩ := u0
      rw [zipLongestMerge]
      rcases List.mem_cons.mp hu with rfl | hu2
      · split <;> simp [copyBufEntry]
      · have := ih us1 u hu2
        split <;>
          simp only [List.mem_cons] <;>
          exact Or.inr (Or.inr this)

theorem count_eq_one_of_nodup_mem {α : Type} [BEq α] [LawfulBEq α] :
    ∀ (l : List α) (b : α), l.Nodup → b ∈ l → l.count b = 1 := by
  intro l
  induction l with
  | nil => intro b _ hb; simp at hb
  | cons a rest ih =>
    intro b hnd hb
    obtain ⟨hna, hnd2⟩ := List.nodup_cons.mp hnd
    rw [List.count_cons]
    rcases List.mem_cons.mp hb with rfl | hb2
    · have : rest.count b = 0 := by
        rw [List.count_eq_zero]
        exact hna
      rw [this]
      simp
    · rw [ih b hnd2 hb2]
      have hne : ¬ a == b := by
        intro hc
        rw [beq_iff_eq] at hc
        exact hna (hc ▸ hb2)
      simp [hne]

/-- C8: the literal deduplicator is correct — the unique literal buffer
list holds each payload exactly once, every unmatched map entry points at
the literal buffer holding its chunk's exact bytes, byte-identical
unmatched chunks share one literal index (hence one literal offset), and
each unmatched entry's `CopyBuf` instruction is emitted from that shared
offset. -/
theorem C8_dedup_correct (src dest : List Nat) :
    (∀ b ∈ (rollsum_delta src dest).unmatched_chunks,
      List.count b (rollsum_delta src dest).unmatched_chunks = 1) ∧
    (∀ p ∈ (rollsum_delta src dest).unmatched, ∃ c ∈ chunkSeq dest, c.start = p.1 ∧
      (rollsum_delta src dest).unmatched_chunks[p.2]? = some c.buf) ∧
    (∀ p q, p ∈ (rollsum_delta src dest).unmatched →
      q ∈ (rollsum_delta src dest).unmatched →
      (rollsum_delta src dest).unmatched_chunks[p.2]? =
        (rollsum_delta src dest).unmatched_chunks[q.2]? →
      p.2 = q.2 ∧ chunkOffset (rollsum_delta src dest).unmatched_chunks p.2 =
        chunkOffset (rollsum_delta src dest).unmatched_chunks q.2) ∧
    (∀ p ∈ (rollsum_delta src dest).unmatched,
      copyBufEntry (rollsum_delta src dest).unmatched_chunks p ∈ patchPairs src dest) := by
  have hord : ValidOrd dest (destOrd dest) := List.Perm.refl _
  have hU := delta_ord_unmatched_spec src dest (destOrd dest) hord
  have hnd := delta_unmatched_chunks_nodup src dest
  have hlink : ∀ p ∈ (rollsum_delta src dest).unmatched, ∃ c ∈ chunkSeq dest,
      c.start = p.1 ∧ (rollsum_delta src dest).unmatched_chunks[p.2]? = some c.buf :=
    hU.2.2.2.2
  refine ⟨?_, hlink, ?_, ?_⟩
  · intro b hb
    exact count_eq_one_of_nodup_mem _ b hnd hb
  · intro p q hp hq he
    obtain ⟨cp, _, _, hgp⟩ := hlink p hp
    obtain ⟨cq, _, _, hgq⟩ := hlink q hq
    have hplt : p.2 < (rollsum_delta src dest).unmatched_chunks.length :=
      (List.getElem?_eq_some.mp hgp).1
    have hqlt : q.2 < (rollsum_delta src dest).unmatched_chunks.length :=
      (List.getElem?_eq_some.mp hgq).1
    rw [List.getElem?_eq_getElem hplt, List.getElem?_eq_getElem hqlt] at he
    have he2 : (rollsum_delta src dest).unmatched_chunks[p.2] =
        (rollsum_delta src dest).unmatched_chunks[q.2] := by
      injection he
    have := (hnd.getElem_inj_iff).mp he2
    exact ⟨this, by rw [this]⟩
  · intro p hp
    exact mem_zipLongestMerge_right _ _ _ p hp

/-- Witness for C8 at `src = []`, `dest = [42]`. -/
theorem C8_dedup_correct_witness :
    List.count [42] (rollsum_delta [] [42]).unmatched_chunks = 1 ∧
    (∃ c ∈ chunkSeq [42], c.start = ((0, 0) : Nat × Nat).1 ∧
      (rollsum_delta [] [42]).unmatched_chunks[((0, 0) : Nat × Nat).2]? = some c.buf) ∧
    copyBufEntry (rollsum_delta [] [42]).unmatched_chunks (0, 0) ∈ patchPairs [] [42] :=
  ⟨(C8_dedup_correct [] [42]).1 [42] (by decide),
   (C8_dedup_correct [] [42]).2.1 (0, 0) (by decide),
   (C8_dedup_correct [] [42]).2.2.2 (0, 0) (by decide)⟩

theorem insertSorted_sorted {α : Type} : ∀ (m : List (Nat × α)) (k : Nat) (v : α),
    m.Pairwise (fun p q => p.1 < q.1) → (∀ q ∈ m, q.1 ≠ k) →
    (insertSorted m k v).Pairwise (fun p q => p.1 < q.1) := by
  intro m
  induction m with
  | nil => intro k v _ _; simp [insertSorted]
  | cons p rest ih =>
    intro k v hs hne
    obtain ⟨hp, hs2⟩ := List.pairwise_cons.mp hs
    rw [insertSorted]
    by_cases hlt : k < p.1
    · rw [if_pos hlt]
      refine List.Pairwise.cons ?_ hs
      intro q hq
      rcases List.mem_cons.mp hq with rfl | hq2
      · exact hlt
      · exact Nat.lt_trans hlt (hp q hq2)
    · rw [if_neg hlt]
      have hpk : p.1 < k := by
        have := hne p (List.mem_cons_self _ _)
        omega
      refine List.Pairwise.cons ?_ (ih k v hs2 (fun q hq => hne q (List.mem_cons_of_mem _ hq)))
      intro q hq
      have hq2 := (insertSorted_perm rest k v).mem_iff.mp hq
      rcases List.mem_cons.mp hq2 with rfl | hq3
      · exact hpk
      · exact hp q hq3

theorem foldl_insertSorted_sorted {α β : Type} (key : β → Nat) (val : β → α) :
    ∀ (ps : List β) (m : List (Nat × α)),
    m.Pairwise (fun p q => p.1 < q.1) → (ps.map key).Nodup →
    (∀ b ∈ ps, ∀ q ∈ m, q.1 ≠ key b) →
    (ps.foldl (fun m b => insertSorted m (key b) (val b)) m).Pairwise
      (fun p q => p.1 < q.1) := by
  intro ps
  induction ps with
  | nil => intro m hs _ _; exact hs
  | cons b rest ih =>
    intro m hs hnd hfresh
    rw [List.map_cons, List.nodup_cons] at hnd
    obtain ⟨hb, hnd2⟩ := hnd
    rw [List.foldl_cons]
    refine ih (insertSorted m (key b) (val b))
      (insertSorted_sorted m (key b) (val b) hs
        (fun q hq => hfresh b (List.mem_cons_self _ _) q hq)) hnd2 ?_
    intro b2 hb2 q hq
    have hq2 := (insertSorted_perm m (key b) (val b)).mem_iff.mp hq
    rcases List.mem_cons.mp hq2 with rfl | hq3
    · intro hc
      have hc2 : key b = key b2 := hc
      exact hb (hc2 ▸ List.mem_map_of_mem key hb2)
    · exact hfresh b2 (List.mem_cons_of_mem _ hb2) q hq3

theorem foldl_insertSorted_perm_key {α β : Type} (key : β → Nat) (val : β → α) :
    ∀ (ps : List β) (m : List (Nat × α)),
    (ps.foldl (fun m b => insertSorted m (key b) (val b)) m).Perm
      (ps.map (fun b => (key b, val b)) ++ m) := by
  intro ps
  induction ps with
  | nil => intro m; simp
  | cons b rest ih =>
    intro m
    rw [List.foldl_cons]
    refine (ih _).trans ?_
    refine (List.Perm.append_left _ (insertSorted_perm m (key b) (val b))).trans ?_
    simp only [List.map_cons]
    exact List.perm_middle

theorem keySorted_perm_eq {α : Type} (l1 l2 : List (Nat × α))
    (h1 : l1.Pairwise (fun p q => p.1 < q.1)) (h2 : l2.Pairwise (fun p q => p.1 < q.1))
    (hp : l1.Perm l2) : l1 = l2 := by
  haveI : IsAntisymm (Nat × α) (fun p q => p.1 < q.1) :=
    ⟨fun a b ha hb => ((Nat.lt_asymm ha) hb).elim⟩
  exact List.eq_of_perm_of_sorted hp h1 h2

theorem matchedPairs_fst_sublist (srcSet : List (ChunkId × List Chunk)) :
    ∀ (cs : List Chunk),
    List.Sublist ((matchedPairs srcSet cs).map Prod.fst) (cs.map Chunk.start) := by
  intro cs
  induction cs with
  | nil => simp [matchedPairs]
  | cons dc rest ih =>
    rw [matchedPairs, List.filterMap_cons]
    cases hcm : chunkMatch srcSet dc with
    | none =>
      simp only [Option.map_none']
      rw [← matchedPairs, List.map_cons]
      exact List.Sublist.cons _ ih
    | some sc =>
      simp only [Option.map_some']
      rw [List.map_cons, ← matchedPairs, List.map_cons]
      exact List.Sublist.cons₂ _ ih

theorem survivorGroups_perm_of_valid (src dest : List Nat) (o1 o2 : List ChunkId)
    (h1 : ValidOrd dest o1) (h2 : ValidOrd dest o2) :
    (survivorGroups src dest o1).Perm (survivorGroups src dest o2) := by
  have hg1 := (orderedGroups_of_valid dest o1 h1).1
  have hg2 := (orderedGroups_of_valid dest o2 h2).1
  have hOG : (orderedGroups (rollsum_chunks_crc32 dest) o1).Perm
      (orderedGroups (rollsum_chunks_crc32 dest) o2) := hg1.trans hg2.symm
  rw [survivorGroups, survivorGroups]
  exact (hOG.map _).filter _

theorem delta_ord_matched_sorted (src dest : List Nat) (ord : List ChunkId)
    (hord : ValidOrd dest ord) :
    (rollsum_delta_ord src dest ord).matched.Pairwise (fun p q => p.1 < q.1) := by
  obtain ⟨hgp, hfp⟩ := orderedGroups_of_valid dest ord hord
  have hnd : (((orderedGroups (rollsum_chunks_crc32 dest) ord).flatMap Prod.snd).map
      Chunk.start).Nodup :=
    (List.Perm.nodup_iff (hfp.map Chunk.start)).mpr (chunkSeq_starts_nodup dest)
  have hmnd : ((matchedPairs (rollsum_chunks_crc32 src)
      ((orderedGroups (rollsum_chunks_crc32 dest) ord).flatMap Prod.snd)).map
      Prod.fst).Nodup :=
    hnd.sublist (matchedPairs_fst_sublist _ _)
  rw [(delta_ord_spec src dest ord hord).2.1]
  exact foldl_insertSorted_sorted Prod.fst Prod.snd _ [] List.Pairwise.nil hmnd
    (fun b _ q hq => absurd hq (List.not_mem_nil q))

theorem delta_ord_matched_perm (src dest : List Nat) (ord : List ChunkId)
    (hord : ValidOrd dest ord) :
    (rollsum_delta_ord src dest ord).matched.Perm
      (matchedPairs (rollsum_chunks_crc32 src) (chunkSeq dest)) := by
  obtain ⟨hgp, hfp⟩ := orderedGroups_of_valid dest ord hord
  rw [(delta_ord_spec src dest ord hord).2.1]
  have hperm := foldl_insertSorted_perm_key Prod.fst Prod.snd
    (matchedPairs (rollsum_chunks_crc32 src)
      ((orderedGroups (rollsum_chunks_crc32 dest) ord).flatMap Prod.snd)) []
  refine hperm.trans ?_
  rw [List.append_nil]
  have hid : List.map (fun b : Nat × Chunk => (b.1, b.2))
      (matchedPairs (rollsum_chunks_crc32 src)
        ((orderedGroups (rollsum_chunks_crc32 dest) ord).flatMap Prod.snd)) =
      matchedPairs (rollsum_chunks_crc32 src)
        ((orderedGroups (rollsum_chunks_crc32 dest) ord).flatMap Prod.snd) :=
    List.map_id _
  rw [hid]
  exact List.Perm.filterMap _ hfp

theorem delta_ord_matched_eq (src dest : List Nat) (o1 o2 : List ChunkId)
    (h1 : ValidOrd dest o1) (h2 : ValidOrd dest o2) :
    (rollsum_delta_ord src dest o1).matched = (rollsum_delta_ord src dest o2).matched :=
  keySorted_perm_eq _ _ (delta_ord_matched_sorted src dest o1 h1)
    (delta_ord_matched_sorted src dest o2 h2)
    ((delta_ord_matched_perm src dest o1 h1).trans
      (delta_ord_matched_perm src dest o2 h2).symm)

theorem loop2_unmatched_sorted : ∀ (L : List (List Chunk)) (ust : UnmatchedState),
    ust.unmatched.Pairwise (fun p q => p.1 < q.1) →
    (L.flatMap (fun cs => cs.map Chunk.start) ++ ust.unmatched.map Prod.fst).Nodup →
    (L.foldl processUnmatchedGroup ust).unmatched.Pairwise (fun p q => p.1 < q.1) := by
  intro L
  induction L with
  | nil => intro ust hs _; exact hs
  | cons cs rest ih =>
    intro ust hs hnd
    rw [List.flatMap_cons, List.append_assoc] at hnd
    have hA : (cs.map Chunk.start).Nodup := hnd.of_append_left
    have hdisj := List.disjoint_of_nodup_append hnd
    have hded_keys : (dedup_chunks cs).1.map Prod.fst = cs.map Chunk.start := by
      rw [dedup_chunks]
      exact dedupGo_fst cs []
    have hsorted1 : (processUnmatchedGroup ust cs).unmatched.Pairwise
        (fun p q => p.1 < q.1) := by
      rw [processUnmatchedGroup]
      dsimp only
      refine foldl_insertSorted_sorted Prod.fst
        (fun p => p.2 + ust.unmatched_chunks.length) (dedup_chunks cs).1
        ust.unmatched hs ?_ ?_
      · rw [hded_keys]
        exact hA
      · intro b hb q hq
        have hb1 : Prod.fst b ∈ cs.map Chunk.start :=
          hded_keys ▸ List.mem_map_of_mem Prod.fst hb
        have hq1 : q.1 ∈ ust.unmatched.map Prod.fst := List.mem_map_of_mem Prod.fst hq
        intro he
        exact hdisj hb1 (List.mem_append_right _ (he ▸ hq1))
    rw [List.foldl_cons]
    refine ih (processUnmatchedGroup ust cs) hsorted1 ?_
    have hu4 := (loop2_fold [cs] ust).2.2.2
    rw [List.foldl_cons, List.foldl_nil] at hu4
    rw [List.flatMap_cons, List.flatMap_nil, List.append_nil] at hu4
    have hperm2 : (rest.flatMap (fun cs => cs.map Chunk.start) ++
        (processUnmatchedGroup ust cs).unmatched.map Prod.fst).Perm
        (cs.map Chunk.start ++ (rest.flatMap (fun cs => cs.map Chunk.start) ++
          ust.unmatched.map Prod.fst)) :=
      (List.Perm.append_left _ hu4).trans (List.perm_append_comm_assoc _ _ _)
    exact hperm2.nodup_iff.mpr hnd

theorem flatMap_sublist_of_sublist {α β : Type} (f1 f2 : α → List β) :
    ∀ (G : List α), (∀ g ∈ G, List.Sublist (f1 g) (f2 g)) →
    List.Sublist (G.flatMap f1) (G.flatMap f2) := by
  intro G
  induction G with
  | nil => intro _; exact List.Sublist.refl _
  | cons g rest ih =>
    intro h
    rw [List.flatMap_cons, List.flatMap_cons]
    exact List.Sublist.append (h g (List.mem_cons_self _ _))
      (ih (fun g2 hg2 => h g2 (List.mem_cons_of_mem _ hg2)))

theorem filter_nonempty_flatMap : ∀ (X : List (ChunkId × List Chunk)),
    ((X.filter (fun g => !g.2.isEmpty)).map Prod.snd).flatMap
      (fun cs => cs.map Chunk.start) =
    (X.map Prod.snd).flatMap (fun cs => cs.map Chunk.start) := by
  intro X
  induction X with
  | nil => rfl
  | cons g rest ih =>
    rw [List.filter_cons]
    rcases hemp : g.2.isEmpty with _ | _
    · simp only [hemp, Bool.not_false, if_pos, List.map_cons, List.flatMap_cons, ih]
    · have hg2 : g.2 = [] := List.isEmpty_iff.mp hemp
      simp only [hemp, Bool.not_true, Bool.false_eq_true, if_false, ih,
        List.map_cons, List.flatMap_cons, hg2, List.map_nil, List.nil_append]

theorem survivor_starts_nodup (src dest : List Nat) (ord : List ChunkId)
    (hord : ValidOrd dest ord) :
    (((survivorGroups src dest ord).map Prod.snd).flatMap
      (fun cs => cs.map Chunk.start)).Nodup := by
  obtain ⟨hgp, hfp⟩ := orderedGroups_of_valid dest ord hord
  have hnd : (((orderedGroups (rollsum_chunks_crc32 dest) ord).flatMap Prod.snd).map
      Chunk.start).Nodup :=
    (List.Perm.nodup_iff (hfp.map Chunk.start)).mpr (chunkSeq_starts_nodup dest)
  have e1 : ((survivorGroups src dest ord).map Prod.snd).flatMap
        (fun cs => cs.map Chunk.start) =
      ((orderedGroups (rollsum_chunks_crc32 dest) ord).map
        (fun g => g.2.filter
          (fun dc => (chunkMatch (rollsum_chunks_crc32 src) dc).isNone))).flatMap
        (fun cs => cs.map Chunk.start) := by
    rw [survivorGroups, filter_nonempty_flatMap, List.map_map]
    rfl
  rw [e1, List.flatMap_map]
  have hsub : List.Sublist
      ((orderedGroups (rollsum_chunks_crc32 dest) ord).flatMap
        ((fun cs => cs.map Chunk.start) ∘ (fun g : ChunkId × List Chunk => g.2.filter
          (fun dc => (chunkMatch (rollsum_chunks_crc32 src) dc).isNone))))
      ((orderedGroups (rollsum_chunks_crc32 dest) ord).flatMap
        (fun g => g.2.map Chunk.start)) :=
    flatMap_sublist_of_sublist _ _ _
      (fun g _ => List.Sublist.map Chunk.start (List.filter_sublist _))
  have e2 : (orderedGroups (rollsum_chunks_crc32 dest) ord).flatMap
        (fun g => g.2.map Chunk.start) =
      ((orderedGroups (rollsum_chunks_crc32 dest) ord).flatMap Prod.snd).map
        Chunk.start := (List.map_flatMap Chunk.start Prod.snd _).symm
  rw [e2] at hsub
  exact hnd.sublist hsub

theorem delta_ord_unmatched_sorted (src dest : List Nat) (ord : List ChunkId)
    (hord : ValidOrd dest ord) :
    (rollsum_delta_ord src dest ord).unmatched.Pairwise (fun p q => p.1 < q.1) := by
  have hsv := survivors_eq src dest ord hord
  have hnd := survivor_starts_nodup src dest ord hord
  have hgoal := loop2_unmatched_sorted ((survivorGroups src dest ord).map Prod.snd)
    ⟨[], [], 0, 0⟩ List.Pairwise.nil (by rw [List.map_nil, List.append_nil]; exact hnd)
  simp only [rollsum_delta_ord, hsv]
  exact hgoal

theorem delta_ord_unmatched_keys_eq (src dest : List Nat) (o1 o2 : List ChunkId)
    (h1 : ValidOrd dest o1) (h2 : ValidOrd dest o2) :
    (rollsum_delta_ord src dest o1).unmatched.map Prod.fst =
      (rollsum_delta_ord src dest o2).unmatched.map Prod.fst := by
  have hk1 := (delta_ord_unmatched_spec src dest o1 h1).2.2.2.1
  have hk2 := (delta_ord_unmatched_spec src dest o2 h2).2.2.2.1
  have hsvp := survivorGroups_perm_of_valid src dest o1 o2 h1 h2
  have hflat : ((((survivorGroups src dest o1).map Prod.snd).flatMap
        (fun cs => cs.map Chunk.start))).Perm
      (((survivorGroups src dest o2).map Prod.snd).flatMap
        (fun cs => cs.map Chunk.start)) :=
    (hsvp.map Prod.snd).flatMap_right _
  have hperm : ((rollsum_delta_ord src dest o1).unmatched.map Prod.fst).Perm
      ((rollsum_delta_ord src dest o2).unmatched.map Prod.fst) :=
    hk1.trans (hflat.trans hk2.symm)
  have hs1 : ((rollsum_delta_ord src dest o1).unmatched.map Prod.fst).Pairwise
      (fun a b => a < b) :=
    List.pairwise_map.mpr (delta_ord_unmatched_sorted src dest o1 h1)
  have hs2 : ((rollsum_delta_ord src dest o2).unmatched.map Prod.fst).Pairwise
      (fun a b => a < b) :=
    List.pairwise_map.mpr (delta_ord_unmatched_sorted src dest o2 h2)
  haveI : IsAntisymm Nat (fun a b => a < b) :=
    ⟨fun a b ha hb => ((Nat.lt_asymm ha) hb).elim⟩
  exact List.eq_of_perm_of_sorted hperm hs1 hs2

theorem stats_ext (s t : RollsumDeltaStats)
    (h1 : s.matched_size = t.matched_size) (h2 : s.unmatched_size = t.unmatched_size)
    (h3 : s.crc_miss = t.crc_miss) (h4 : s.chunkid_collision = t.chunkid_collision)
    (h5 : s.src_chunks = t.src_chunks) (h6 : s.dest_chunks = t.dest_chunks)
    (h7 : s.dest_duplicates = t.dest_duplicates) (h8 : s.dest_size = t.dest_size) :
    s = t := by
  cases s
  cases t
  simp_all

theorem delta_ord_stats_eq (src dest : List Nat) (o1 o2 : List ChunkId)
    (h1 : ValidOrd dest o1) (h2 : ValidOrd dest o2) :
    (rollsum_delta_ord src dest o1).stats = (rollsum_delta_ord src dest o2).stats := by
  obtain ⟨-, -, -, m1, c1, k1, -⟩ := delta_ord_spec src dest o1 h1
  obtain ⟨-, -, -, m2, c2, k2, -⟩ := delta_ord_spec src dest o2 h2
  obtain ⟨-, u1, d1, -, -⟩ := delta_ord_unmatched_spec src dest o1 h1
  obtain ⟨-, u2, d2, -, -⟩ := delta_ord_unmatched_spec src dest o2 h2
  have hsvp := survivorGroups_perm_of_valid src dest o1 o2 h1 h2
  refine stats_ext _ _ ?_ ?_ ?_ ?_ ?_ ?_ ?_ ?_
  · rw [m1, m2]
  · rw [u1, u2]
    exact ((hsvp.map Prod.snd).map _).sum_eq
  · rw [c1, c2]
  · rw [k1, k2]
  · rfl
  · rfl
  · rw [d1, d2]
  · rfl

/-- C9 (corrected): for any two valid `HashMap` iteration orders over the
destination chunk groups, `rollsum_delta` produces the same sorted matched
map, the same statistics, the same sorted unmatched destination offsets,
and the same fatal-branch flags (never panicking) — the delta is
deterministic up to the literal-blob index assignment.  (The patch bytes
themselves are *not* order-independent; see the counterexample.) -/
theorem C9_determinism_amended (src dest : List Nat) (o1 o2 : List ChunkId)
    (h1 : ValidOrd dest o1) (h2 : ValidOrd dest o2) :
    (rollsum_delta_ord src dest o1).matched = (rollsum_delta_ord src dest o2).matched ∧
    (rollsum_delta_ord src dest o1).stats = (rollsum_delta_ord src dest o2).stats ∧
    (rollsum_delta_ord src dest o1).unmatched.map Prod.fst =
      (rollsum_delta_ord src dest o2).unmatched.map Prod.fst ∧
    (rollsum_delta_ord src dest o1).panicked = false ∧
    (rollsum_delta_ord src dest o2).panicked = false ∧
    (rollsum_delta_ord src dest o1).assertFailed =
      (rollsum_delta_ord src dest o2).assertFailed :=
  ⟨delta_ord_matched_eq src dest o1 o2 h1 h2,
   delta_ord_stats_eq src dest o1 o2 h1 h2,
   delta_ord_unmatched_keys_eq src dest o1 o2 h1 h2,
   (delta_ord_spec src dest o1 h1).1,
   (delta_ord_spec src dest o2 h2).1,
   by rw [(delta_ord_spec src dest o1 h1).2.2.2.2.2.2,
     (delta_ord_spec src dest o2 h2).2.2.2.2.2.2]⟩

/-- Witness for C9 at `cxSrc`/`cxDest` (two destination groups), comparing
the canonical iteration order with its reversal. -/
theorem C9_determinism_amended_witness :
    (rollsum_delta_ord cxSrc cxDest (destOrd cxDest)).matched =
      (rollsum_delta_ord cxSrc cxDest ((destOrd cxDest).reverse)).matched ∧
    (rollsum_delta_ord cxSrc cxDest (destOrd cxDest)).stats =
      (rollsum_delta_ord cxSrc cxDest ((destOrd cxDest).reverse)).stats ∧
    (rollsum_delta_ord cxSrc cxDest (destOrd cxDest)).unmatched.map Prod.fst =
      (rollsum_delta_ord cxSrc cxDest ((destOrd cxDest).reverse)).unmatched.map Prod.fst ∧
    (rollsum_delta_ord cxSrc cxDest (destOrd cxDest)).panicked = false ∧
    (rollsum_delta_ord cxSrc cxDest ((destOrd cxDest).reverse)).panicked = false ∧
    (rollsum_delta_ord cxSrc cxDest (destOrd cxDest)).assertFailed =
      (rollsum_delta_ord cxSrc cxDest ((destOrd cxDest).reverse)).assertFailed :=
  C9_determinism_amended cxSrc cxDest (destOrd cxDest) ((destOrd cxDest).reverse)
    (List.Perm.refl _) (List.reverse_perm _)
